import Mathlib

/-!
Shallow embedding of the heap allocator in `p3Heap.c`.

The allocator manages one contiguous region.  Every block is represented by
its 4-byte header word `size_status : int`: the block size (a multiple of 8,
header included) plus two status bits, bit 0 (`isAllocated`, the a-bit) and
bit 1 (`predecessorAllocated`, the p-bit).  The end of the region carries a
sentinel header with `size_status = 1`.

We model the heap as the list of the header values of the blocks, in address
order; the sentinel is the end of the list.  The global variables
`heap_start` (address of the first header) and `alloc_size` (managed
capacity) are carried alongside.  This is faithful to the C code because the
code only ever reads and writes the header words it reaches by advancing
from `heap_start` by masked block sizes, which in the list model are exactly
the list entries.  Two memory facts that fall outside the header list are
recorded in comments where they matter: the free-block footer written by
`init_heap` (never read by any operation) and non-header words (never
written with the a-bit set by any allocator operation).

Machine integers are modelled as `Int`.  The C `int` arithmetic here never
overflows for any realistic region size (all quantities stay below
`alloc_size + 16`), and all values the operations compute with are
non-negative in reachable states, where C truncated `%` agrees with Lean's
`Int.emod`.
-/

namespace P3Heap

/-- The remainder of a header word mod 8: its two status bits (`rem` in the C
code; under the block invariant it is at most 3). -/
def rem8 (b : Int) : Int := b % 8

/-- The block size stored in a header word, status bits masked off
(`size_status - size_status % 8` in the C code). -/
def msize (b : Int) : Int := b - b % 8

/-- Bit 0 of a header word: the `isAllocated` bit. -/
def abit (b : Int) : Bool := decide (b % 2 = 1)

/-- Bit 1 of a header word: the `predecessorAllocated` bit. -/
def pbit (b : Int) : Bool := decide (2 ≤ b % 4)

/-- A header word with the a-bit clear: a free block. -/
def isFree (b : Int) : Bool := decide (b % 2 = 0)

/-- Sum of the masked sizes of a list of header words. -/
def sumSizes (l : List Int) : Int := (l.map msize).sum

/-- Byte offset of the `i`-th header from `heap_start`: the sum of the
masked sizes of the blocks before it. -/
def offsetOf (l : List Int) (i : Nat) : Int := sumSizes (l.take i)

/-- The allocator's global state: the flag `allocated_once` inside
`init_heap`, the globals `alloc_size` and `heap_start`, and the block list
(the header words reachable from `heap_start`, sentinel excluded). -/
structure AllocState where
  allocated_once : Bool
  alloc_size : Int
  heap_start : Int
  blocks : List Int
deriving DecidableEq, Repr

/-- Result of the scan loop in `balloc`: an exact match found at index `i`
(the loop returns from inside its body), or the final best-fit block `i` of
masked size `bf` (the loop ran to the sentinel with `best_fit != NULL`), or
no free block large enough (`best_fit == NULL` at the end). -/
inductive ScanResult where
  | exact (i : Nat)
  | best (i : Nat) (bf : Int)
  | nofit
deriving DecidableEq, Repr

/-- The `while (frontier->size_status != 1)` loop of `balloc`.  `bs` is the
required block size, `best` the current best-fit block (index and masked
size, `NULL` at first), `idx` the index of the block `frontier` points to.
Free blocks (`rem == 0 || rem == 2`) of size exactly `bs` end the scan at
once; otherwise a strictly smaller sufficient block replaces the best fit. -/
def ballocScan (bs : Int) : List Int → Option (Nat × Int) → Nat → ScanResult
  | [], none, _ => .nofit
  | [], some (j, bf), _ => .best j bf
  | b :: rest, best, idx =>
    if b % 8 = 0 ∨ b % 8 = 2 then
      if bs ≤ msize b then
        if msize b = bs then .exact idx
        else
          match best with
          | none => ballocScan bs rest (some (idx, msize b)) (idx + 1)
          | some (j, bf) =>
            if msize b < bf then ballocScan bs rest (some (idx, msize b)) (idx + 1)
            else ballocScan bs rest (some (j, bf)) (idx + 1)
      else ballocScan bs rest best (idx + 1)
    else ballocScan bs rest best (idx + 1)

/-- The required block size for a payload request: `size + sizeof(blockHeader)`
padded up to the next multiple of 8 (`sizeof(blockHeader) = 4`). -/
def block_size (size : Int) : Int :=
  if (size + 4) % 8 = 0 then size + 4 else size + 4 + (8 - (size + 4) % 8)

/-- `balloc` from `p3Heap.c`.  Returns the payload address (`NULL` modelled
as `none`) and the state after the call.  On the exact-match path the chosen
header gets its a-bit set (`+= 1`) and the following header, when it is not
the sentinel, gets its p-bit set (`+= 2`).  On the best-fit path the chosen
block is split in place: a new free header `bf_size - block_size + 2` is
written at `best_fit + block_size` and the chosen header becomes
`block_size + (size_status % 8) + 1`.  The payload address is
`frontier + 1`, i.e. 4 bytes past the chosen header. -/
def balloc (size : Int) (s : AllocState) : Option Int × AllocState :=
  if size ≤ 0 ∨ s.alloc_size < size then (none, s)
  else
    let bs := block_size size
    match ballocScan bs s.blocks none 0 with
    | .exact i =>
      let l1 := s.blocks.set i (s.blocks.getD i 0 + 1)
      let l2 := if i + 1 < s.blocks.length then l1.set (i + 1) (l1.getD (i + 1) 0 + 2) else l1
      (some (s.heap_start + offsetOf s.blocks i + 4), { s with blocks := l2 })
    | .best i bf =>
      let b := s.blocks.getD i 0
      let l1 := s.blocks.take i ++ [bs + b % 8 + 1, bf - bs + 2] ++ s.blocks.drop (i + 1)
      (some (s.heap_start + offsetOf s.blocks i + 4), { s with blocks := l1 })
    | .nofit => (none, s)

/-- Find the block whose header lies at byte offset `off` from `heap_start`
by walking the block list, as the C code's address arithmetic does.  An
offset that is not a header position yields `none`: in the C code such a
pointer makes `bfree` read a non-header word, and no allocator operation
ever writes a word with the a-bit set anywhere but at a block header, so
`bfree` rejects it just the same (see `bfree`). -/
def locate : List Int → Int → Option Nat
  | [], _ => none
  | b :: rest, off =>
    if off = 0 then some 0
    else
      match locate rest (off - msize b) with
      | some i => some (i + 1)
      | none => none

/-- `bfree` from `p3Heap.c`.  Returns the C return value (`0` success, `-1`
failure) and the state after the call.  Checks, in order: non-null pointer,
8-byte alignment, region bounds (note both bounds are inclusive in the C
comparison), and the a-bit of the header 4 bytes before the pointer.  On
success the following header, when not the sentinel, loses its p-bit
(`-= 2`) and the block's header loses its a-bit (`-= 1`). -/
def bfree (ptr : Int) (s : AllocState) : Int × AllocState :=
  if ptr = 0 then (-1, s)
  else if ¬ ptr % 8 = 0 then (-1, s)
  else if ptr < s.heap_start ∨ s.heap_start + s.alloc_size < ptr then (-1, s)
  else
    match locate s.blocks (ptr - 4 - s.heap_start) with
    | none => (-1, s)
    | some i =>
      let b := s.blocks.getD i 0
      if b % 8 = 0 ∨ b % 8 = 2 then (-1, s)
      else
        let l1 := if i + 1 < s.blocks.length then s.blocks.set (i + 1) (s.blocks.getD (i + 1) 0 - 2) else s.blocks
        (0, { s with blocks := l1.set i (b - 1) })

/-- The inner `while` loop of `coalesce`: absorb every immediately following
header that is not the sentinel and has `size_status % 8 == 0` (free with
p-bit clear; the raw value is then the masked size).  Returns the
accumulated absorbed size, the remaining list, and whether the loop body ran
at least once (`count = 1` in the C code). -/
def absorbRun : List Int → Int × List Int × Bool
  | [] => (0, [], false)
  | c :: cs =>
    if c % 8 = 0 then
      let k := absorbRun cs
      (c + k.1, k.2.1, true)
    else (0, c :: cs, false)

/-- The outer loop of `coalesce`: on a free block (`rem == 0 || rem == 2`)
absorb the following run, write back `fr_size + rem`, and continue after the
merged span; skip allocated blocks unchanged.  Returns the new block list
and the `count` flag. -/
def coalesceGo : List Int → List Int × Bool
  | [] => ([], false)
  | b :: rest =>
    if b % 8 = 0 ∨ b % 8 = 2 then
      let ar := absorbRun rest
      let k := coalesceGo ar.2.1
      ((b - b % 8 + ar.1 + b % 8) :: k.1, ar.2.2 || k.2)
    else
      let k := coalesceGo rest
      (b :: k.1, k.2)
termination_by l => l.length
decreasing_by
  all_goals simp only [List.length_cons]
  · have hlen : ∀ (l : List Int), (absorbRun l).2.1.length ≤ l.length := by
      intro l
      induction l with
      | nil => simp [absorbRun]
      | cons c cs ih =>
        by_cases h : c % 8 = 0
        · rw [absorbRun, if_pos h]
          exact Nat.le_succ_of_le ih
        · rw [absorbRun, if_neg h]
    exact Nat.lt_succ_of_le (hlen _)
  · exact Nat.lt_succ_self _

/-- `coalesce` from `p3Heap.c`: one left-to-right pass over the block list;
returns whether any merge occurred (the C `count`, 1 or 0, as a `Bool`). -/
def coalesce (s : AllocState) : Bool × AllocState :=
  ((coalesceGo s.blocks).2, { s with blocks := (coalesceGo s.blocks).1 })

/-- `init_heap` from `p3Heap.c`.  The environment interactions are
parameters: `pagesize` is what `getpagesize()` returns, `fdOk` whether
`open("/dev/zero")` succeeds, and `mmap_ptr` the page-aligned address
returned by `mmap` (`none` for `MAP_FAILED`).  Note that the global
`alloc_size` is assigned before the `open`/`mmap` failure checks, so those
failure paths return with `alloc_size` already overwritten.  On success the
sentinel (`size_status = 1`) is placed at `heap_start + alloc_size` (the end
of the list in this model), the single free block `alloc_size + 2` (p-bit
set, a-bit clear) starts at `heap_start = mmap_ptr + 4`, and a footer word
`alloc_size` is written at `heap_start + alloc_size - 4` (a non-header word,
never read by any operation; it is free with a-bit clear). -/
def init_heap (sizeOfRegion pagesize : Int) (fdOk : Bool) (mmap_ptr : Option Int)
    (s : AllocState) : Int × AllocState :=
  if s.allocated_once then (-1, s)
  else if sizeOfRegion ≤ 0 then (-1, s)
  else
    let padsize := (pagesize - sizeOfRegion % pagesize) % pagesize
    let s1 := { s with alloc_size := sizeOfRegion + padsize }
    if ¬ fdOk then (-1, s1)
    else
      match mmap_ptr with
      | none => (-1, { s1 with allocated_once := false })
      | some p =>
        let a := s1.alloc_size - 8
        (0, { allocated_once := true, alloc_size := a, heap_start := p + 4,
              blocks := [a + 2] })

/-- States reachable through the allocator's interface: a successful
`init_heap` (with a positive page size that is a multiple of 8 and at least
16, and a non-null page-aligned `mmap` result), followed by any sequence of
`balloc`, `bfree`, `coalesce` and (always-failing) repeated `init_heap`
calls. -/
inductive Reachable : AllocState → Prop
  | init (sizeOfRegion pagesize p : Int) (s0 s : AllocState)
      (hpage : 16 ≤ pagesize) (hp8 : pagesize % 8 = 0)
      (hpos : 0 < p) (hpal : p % 8 = 0)
      (h0 : s0.allocated_once = false)
      (h : init_heap sizeOfRegion pagesize true (some p) s0 = (0, s)) : Reachable s
  | step_balloc (sz : Int) (s : AllocState) :
      Reachable s → Reachable (balloc sz s).2
  | step_bfree (ptr : Int) (s : AllocState) :
      Reachable s → Reachable (bfree ptr s).2
  | step_coalesce (s : AllocState) :
      Reachable s → Reachable (coalesce s).2
  | step_init (a b : Int) (c : Bool) (d : Option Int) (s : AllocState) :
      Reachable s → Reachable (init_heap a b c d s).2

/-- The p-bit chain invariant: walking the list with `pa` the a-bit of the
block before the current one (`true` at the start: the first block is
treated as having an allocated predecessor), every block's p-bit equals
`pa`. -/
def chainOk : Bool → List Int → Bool
  | _, [] => true
  | pa, b :: rest => (pbit b == pa) && chainOk (abit b) rest

/-- Well-formedness of an initialized heap state: every header has its two
status bits in the low three bits and a masked size of at least 8; the p-bit
chain holds; the masked sizes sum to `alloc_size`; `heap_start` is 4 bytes
past an 8-byte boundary and positive; `alloc_size` is a positive multiple
of 8; the heap has been initialized. -/
def WF (s : AllocState) : Prop :=
  (∀ b ∈ s.blocks, b % 8 ≤ 3 ∧ 8 ≤ msize b) ∧
  chainOk true s.blocks = true ∧
  sumSizes s.blocks = s.alloc_size ∧
  s.heap_start % 8 = 4 ∧ 0 < s.heap_start ∧
  s.alloc_size % 8 = 0 ∧ 8 ≤ s.alloc_size ∧
  s.allocated_once = true

/-- A header word the scan loop of `balloc` treats as a free block large
enough for required block size `bs` (a candidate for the best fit). -/
def isCand (bs b : Int) : Prop := (b % 8 = 0 ∨ b % 8 = 2) ∧ bs ≤ msize b

/-- A header word the scan loop of `balloc` treats as an exact match for
required block size `bs`. -/
def isExact (bs b : Int) : Prop := (b % 8 = 0 ∨ b % 8 = 2) ∧ msize b = bs

instance (bs b : Int) : Decidable (isCand bs b) := by unfold isCand; infer_instance

instance (bs b : Int) : Decidable (isExact bs b) := by unfold isExact; infer_instance

/-- The block list after the exact-match path of `balloc` has chosen block
`i`: its header gains the a-bit, and the following header, when it exists
(when it is not the sentinel), gains the p-bit. -/
def exactUpdate (l : List Int) (i : Nat) : List Int :=
  let l1 := l.set i (l.getD i 0 + 1)
  if i + 1 < l.length then l1.set (i + 1) (l1.getD (i + 1) 0 + 2) else l1

/-- The block list after the split path of `balloc` has chosen block `i` for
required block size `bs`: the leading `bs` bytes become the allocated block
(old p-bit kept, a-bit set) and the remainder becomes a free block with the
p-bit set. -/
def splitUpdate (l : List Int) (i : Nat) (bs : Int) : List Int :=
  l.take i ++ [bs + l.getD i 0 % 8 + 1, msize (l.getD i 0) - bs + 2] ++ l.drop (i + 1)

/-- The uninitialized start-of-process state: `heap_start == NULL`,
`allocated_once == 0`, `alloc_size` uninitialized (any value; 0 here). -/
def s0 : AllocState := ⟨false, 0, 0, []⟩

/-- A concrete successfully initialized state: `init_heap(100)` with page
size 4096 and the backing region mapped at address 4096. -/
def sInit : AllocState := ⟨true, 4088, 4100, [4090]⟩

/-- The a-bit state carried by the p-bit chain after walking past `u`. -/
def paAfter (pa : Bool) (u : List Int) : Bool := u.foldl (fun _ b => abit b) pa

/-- The block list after a successful `bfree` of block `i`: the following
header, when it exists (when it is not the sentinel), loses its p-bit, and
the block's header loses its a-bit. -/
def freeUpdate (l : List Int) (i : Nat) : List Int :=
  (if i + 1 < l.length then l.set (i + 1) (l.getD (i + 1) 0 - 2) else l).set i
    (l.getD i 0 - 1)

/-- Modelled from the spec (Coalescer): absorb the maximal run of free
blocks at the head of the list, returning the accumulated masked size and
the remaining list. -/
def specAbsorb : List Int → Int × List Int
  | [] => (0, [])
  | c :: cs =>
    if isFree c then
      let k := specAbsorb cs
      (msize c + k.1, k.2)
    else (0, c :: cs)

/-- Modelled from the spec (Coalescer): one left-to-right pass that replaces
every maximal run of adjacent free blocks by a single free block whose size
is the sum of the run's sizes and whose p-bit equals the first block's
p-bit, and leaves allocated blocks unmodified. -/
def specCoalesce : List Int → List Int
  | [] => []
  | b :: rest =>
    if isFree b then
      (msize b + (specAbsorb rest).1 + (if pbit b then 2 else 0)) ::
        specCoalesce (specAbsorb rest).2
    else b :: specCoalesce rest
termination_by l => l.length
decreasing_by
  all_goals simp only [List.length_cons]
  · have hlen : ∀ (l : List Int), (specAbsorb l).2.length ≤ l.length := by
      intro l
      induction l with
      | nil => simp [specAbsorb]
      | cons c cs ih =>
        by_cases h : isFree c
        · rw [specAbsorb, if_pos h]
          exact Nat.le_succ_of_le ih
        · rw [specAbsorb, if_neg h]
    exact Nat.lt_succ_of_le (hlen _)
  · exact Nat.lt_succ_self _

/-- Two adjacent free blocks exist somewhere in the list (so one pass of the
coalescer performs at least one merge). -/
def hasAdjFreePair : List Int → Bool
  | b :: c :: rest => (isFree b && isFree c) || hasAdjFreePair (c :: rest)
  | _ => false

theorem absorbRun_len_le (l : List Int) : (absorbRun l).2.1.length ≤ l.length := by
  induction l with
  | nil => simp [absorbRun]
  | cons c cs ih =>
    by_cases h : c % 8 = 0
    · rw [absorbRun, if_pos h]
      exact Nat.le_succ_of_le ih
    · rw [absorbRun, if_neg h]

theorem isExact.cand {bs b : Int} (h : isExact bs b) : isCand bs b :=
  ⟨h.1, le_of_eq h.2.symm⟩

theorem sInit_reachable : Reachable sInit :=
  Reachable.init 100 4096 4096 s0 sInit (by norm_num) (by norm_num)
    (by norm_num) (by norm_num) rfl (by decide)

theorem scan_exact_charac (bs : Int) (l : List Int) :
    ∀ (best : Option (Nat × Int)) (idx i : Nat),
      ballocScan bs l best idx = .exact i →
      ∃ k, k < l.length ∧ i = idx + k ∧ isExact bs (l.getD k 0) ∧
        ∀ j < k, ¬ isExact bs (l.getD j 0) := by
  induction l with
  | nil =>
    intro best idx i h
    match best with
    | none => simp [ballocScan] at h
    | some (j, bf) => simp [ballocScan] at h
  | cons b rest ih =>
    intro best idx i h
    rw [ballocScan.eq_def] at h
    simp only at h
    by_cases hfree : b % 8 = 0 ∨ b % 8 = 2
    · rw [if_pos hfree] at h
      by_cases hge : bs ≤ msize b
      · rw [if_pos hge] at h
        by_cases heq : msize b = bs
        · rw [if_pos heq] at h
          cases h
          exact ⟨0, by simp, by simp, ⟨hfree, heq⟩, by simp⟩
        · rw [if_neg heq] at h
          have hnotex : ¬ isExact bs b := fun hx => heq hx.2
          match hb : best with
          | none =>
            simp only at h
            obtain ⟨k, hk, hik, hx, hprev⟩ := ih _ _ _ h
            refine ⟨k + 1, by simpa using hk, by omega, by simpa using hx, ?_⟩
            intro j hj
            cases j with
            | zero => simpa using hnotex
            | succ j' => simpa using hprev j' (by omega)
          | some jb =>
            obtain ⟨j0, bf0⟩ := jb
            simp only at h
            by_cases hlt : msize b < bf0
            · rw [if_pos hlt] at h
              obtain ⟨k, hk, hik, hx, hprev⟩ := ih _ _ _ h
              refine ⟨k + 1, by simpa using hk, by omega, by simpa using hx, ?_⟩
              intro j hj
              cases j with
              | zero => simpa using hnotex
              | succ j' => simpa using hprev j' (by omega)
            · rw [if_neg hlt] at h
              obtain ⟨k, hk, hik, hx, hprev⟩ := ih _ _ _ h
              refine ⟨k + 1, by simpa using hk, by omega, by simpa using hx, ?_⟩
              intro j hj
              cases j with
              | zero => simpa using hnotex
              | succ j' => simpa using hprev j' (by omega)
      · rw [if_neg hge] at h
        have hnotex : ¬ isExact bs b := fun hx => hge (le_of_eq hx.2.symm)
        obtain ⟨k, hk, hik, hx, hprev⟩ := ih _ _ _ h
        refine ⟨k + 1, by simpa using hk, by omega, by simpa using hx, ?_⟩
        intro j hj
        cases j with
        | zero => simpa using hnotex
        | succ j' => simpa using hprev j' (by omega)
    · rw [if_neg hfree] at h
      have hnotex : ¬ isExact bs b := fun hx => hfree hx.1
      obtain ⟨k, hk, hik, hx, hprev⟩ := ih _ _ _ h
      refine ⟨k + 1, by simpa using hk, by omega, by simpa using hx, ?_⟩
      intro j hj
      cases j with
      | zero => simpa using hnotex
      | succ j' => simpa using hprev j' (by omega)

theorem scan_best_charac (bs : Int) (l : List Int) :
    ∀ (best : Option (Nat × Int)) (idx i : Nat) (bf : Int),
      ballocScan bs l best idx = .best i bf →
      (∀ k < l.length, ¬ isExact bs (l.getD k 0)) ∧
      ((best = some (i, bf) ∧
          ∀ k < l.length, isCand bs (l.getD k 0) → bf ≤ msize (l.getD k 0)) ∨
        (∃ k, k < l.length ∧ i = idx + k ∧ isCand bs (l.getD k 0) ∧
          msize (l.getD k 0) = bf ∧
          (∀ j < l.length, isCand bs (l.getD j 0) → bf ≤ msize (l.getD j 0)) ∧
          (∀ j < k, isCand bs (l.getD j 0) → bf < msize (l.getD j 0)) ∧
          (∀ j0 bf0, best = some (j0, bf0) → bf < bf0))) := by
  induction l with
  | nil =>
    intro best idx i bf h
    match best with
    | none => simp [ballocScan] at h
    | some (j, b0) =>
      simp only [ballocScan, ScanResult.best.injEq] at h
      exact ⟨by simp, Or.inl ⟨by rw [h.1, h.2], by simp⟩⟩
  | cons b rest ih =>
    intro best idx i bf h
    rw [ballocScan.eq_def] at h
    simp only at h
    by_cases hfree : b % 8 = 0 ∨ b % 8 = 2
    · rw [if_pos hfree] at h
      by_cases hge : bs ≤ msize b
      · rw [if_pos hge] at h
        by_cases heq : msize b = bs
        · rw [if_pos heq] at h
          simp at h
        · rw [if_neg heq] at h
          have hnotex : ¬ isExact bs b := fun hx => heq hx.2
          have hcb : isCand bs b := ⟨hfree, hge⟩
          match hb : best with
          | none =>
            simp only at h
            obtain ⟨hnoex, hrec⟩ := ih _ _ _ _ h
            refine ⟨?_, ?_⟩
            · intro k hk
              cases k with
              | zero => simpa using hnotex
              | succ k' => simpa using hnoex k' (by simpa using hk)
            · rcases hrec with ⟨hbe, hbound⟩ | ⟨k', hk', hik', hck', hmk', hbnd', hstr', hcar'⟩
              · -- the head became the best fit and survived the rest of the scan
                obtain ⟨hi, hbf⟩ : idx = i ∧ msize b = bf := by
                  constructor <;> [exact congrArg Prod.fst (Option.some.inj hbe) ;
                    exact congrArg Prod.snd (Option.some.inj hbe)]
                refine Or.inr ⟨0, by simp, by omega, by simpa using hcb, by simpa using hbf, ?_, by simp, by simp⟩
                intro j hj hcj
                cases j with
                | zero => simpa using hbf.ge
                | succ j' =>
                  simp only [List.getD_cons_succ] at hcj ⊢
                  exact hbound j' (by simpa using hj) hcj
              · -- a strictly better block later in the list replaced the head
                have hlt0 : bf < msize b := hcar' idx (msize b) rfl
                refine Or.inr ⟨k' + 1, by simpa using hk', by omega, by simpa using hck',
                  by simpa using hmk', ?_, ?_, by simp⟩
                · intro j hj hcj
                  cases j with
                  | zero => simpa using le_of_lt hlt0
                  | succ j' =>
                    simp only [List.getD_cons_succ] at hcj ⊢
                    exact hbnd' j' (by simpa using hj) hcj
                · intro j hj hcj
                  cases j with
                  | zero => simpa using hlt0
                  | succ j' =>
                    simp only [List.getD_cons_succ] at hcj ⊢
                    exact hstr' j' (by omega) hcj
          | some jb =>
            obtain ⟨j0, bf0⟩ := jb
            simp only at h
            by_cases hlt : msize b < bf0
            · rw [if_pos hlt] at h
              obtain ⟨hnoex, hrec⟩ := ih _ _ _ _ h
              refine ⟨?_, ?_⟩
              · intro k hk
                cases k with
                | zero => simpa using hnotex
                | succ k' => simpa using hnoex k' (by simpa using hk)
              · rcases hrec with ⟨hbe, hbound⟩ | ⟨k', hk', hik', hck', hmk', hbnd', hstr', hcar'⟩
                · obtain ⟨hi, hbf⟩ : idx = i ∧ msize b = bf := by
                    constructor <;> [exact congrArg Prod.fst (Option.some.inj hbe) ;
                      exact congrArg Prod.snd (Option.some.inj hbe)]
                  refine Or.inr ⟨0, by simp, by omega, by simpa using hcb, by simpa using hbf, ?_, by simp, ?_⟩
                  · intro j hj hcj
                    cases j with
                    | zero => simpa using hbf.ge
                    | succ j' =>
                      simp only [List.getD_cons_succ] at hcj ⊢
                      exact hbound j' (by simpa using hj) hcj
                  · intro ja bfa ha
                    obtain ⟨ha1, ha2⟩ := Prod.mk.injEq .. ▸ Option.some.inj ha
                    omega
                · have hlt0 : bf < msize b := hcar' idx (msize b) rfl
                  refine Or.inr ⟨k' + 1, by simpa using hk', by omega, by simpa using hck',
                    by simpa using hmk', ?_, ?_, ?_⟩
                  · intro j hj hcj
                    cases j with
                    | zero => simpa using le_of_lt hlt0
                    | succ j' =>
                      simp only [List.getD_cons_succ] at hcj ⊢
                      exact hbnd' j' (by simpa using hj) hcj
                  · intro j hj hcj
                    cases j with
                    | zero => simpa using hlt0
                    | succ j' =>
                      simp only [List.getD_cons_succ] at hcj ⊢
                      exact hstr' j' (by omega) hcj
                  · intro ja bfa ha
                    obtain ⟨ha1, ha2⟩ := Prod.mk.injEq .. ▸ Option.some.inj ha
                    omega
            · rw [if_neg hlt] at h
              obtain ⟨hnoex, hrec⟩ := ih _ _ _ _ h
              refine ⟨?_, ?_⟩
              · intro k hk
                cases k with
                | zero => simpa using hnotex
                | succ k' => simpa using hnoex k' (by simpa using hk)
              · rcases hrec with ⟨hbe, hbound⟩ | ⟨k', hk', hik', hck', hmk', hbnd', hstr', hcar'⟩
                · obtain ⟨hi, hbf⟩ : j0 = i ∧ bf0 = bf := by
                    constructor <;> [exact congrArg Prod.fst (Option.some.inj hbe) ;
                      exact congrArg Prod.snd (Option.some.inj hbe)]
                  refine Or.inl ⟨by rw [hi, hbf], ?_⟩
                  intro j hj hcj
                  cases j with
                  | zero => simp only [List.getD_cons_zero] at hcj ⊢; omega
                  | succ j' =>
                    simp only [List.getD_cons_succ] at hcj ⊢
                    exact hbound j' (by simpa using hj) hcj
                · have hlt0 : bf < bf0 := hcar' j0 bf0 rfl
                  refine Or.inr ⟨k' + 1, by simpa using hk', by omega, by simpa using hck',
                    by simpa using hmk', ?_, ?_, ?_⟩
                  · intro j hj hcj
                    cases j with
                    | zero => simp only [List.getD_cons_zero] at hcj ⊢; omega
                    | succ j' =>
                      simp only [List.getD_cons_succ] at hcj ⊢
                      exact hbnd' j' (by simpa using hj) hcj
                  · intro j hj hcj
                    cases j with
                    | zero => simp only [List.getD_cons_zero] at hcj ⊢; omega
                    | succ j' =>
                      simp only [List.getD_cons_succ] at hcj ⊢
                      exact hstr' j' (by omega) hcj
                  · intro ja bfa ha
                    obtain ⟨ha1, ha2⟩ := Prod.mk.injEq .. ▸ Option.some.inj ha
                    omega
      · rw [if_neg hge] at h
        have hnotex : ¬ isExact bs b := fun hx => hge (le_of_eq hx.2.symm)
        have hnotc : ¬ isCand bs b := fun hx => hge hx.2
        obtain ⟨hnoex, hrec⟩ := ih _ _ _ _ h
        refine ⟨?_, ?_⟩
        · intro k hk
          cases k with
          | zero => simpa using hnotex
          | succ k' => simpa using hnoex k' (by simpa using hk)
        · rcases hrec with ⟨hbe, hbound⟩ | ⟨k', hk', hik', hck', hmk', hbnd', hstr', hcar'⟩
          · refine Or.inl ⟨hbe, ?_⟩
            intro j hj hcj
            cases j with
            | zero => exact absurd (by simpa using hcj) hnotc
            | succ j' =>
              simp only [List.getD_cons_succ] at hcj ⊢
              exact hbound j' (by simpa using hj) hcj
          · refine Or.inr ⟨k' + 1, by simpa using hk', by omega, by simpa using hck',
              by simpa using hmk', ?_, ?_, hcar'⟩
            · intro j hj hcj
              cases j with
              | zero => exact absurd (by simpa using hcj) hnotc
              | succ j' =>
                simp only [List.getD_cons_succ] at hcj ⊢
                exact hbnd' j' (by simpa using hj) hcj
            · intro j hj hcj
              cases j with
              | zero => exact absurd (by simpa using hcj) hnotc
              | succ j' =>
                simp only [List.getD_cons_succ] at hcj ⊢
                exact hstr' j' (by omega) hcj
    · rw [if_neg hfree] at h
      have hnotex : ¬ isExact bs b := fun hx => hfree hx.1
      have hnotc : ¬ isCand bs b := fun hx => hfree hx.1
      obtain ⟨hnoex, hrec⟩ := ih _ _ _ _ h
      refine ⟨?_, ?_⟩
      · intro k hk
        cases k with
        | zero => simpa using hnotex
        | succ k' => simpa using hnoex k' (by simpa using hk)
      · rcases hrec with ⟨hbe, hbound⟩ | ⟨k', hk', hik', hck', hmk', hbnd', hstr', hcar'⟩
        · refine Or.inl ⟨hbe, ?_⟩
          intro j hj hcj
          cases j with
          | zero => exact absurd (by simpa using hcj) hnotc
          | succ j' =>
            simp only [List.getD_cons_succ] at hcj ⊢
            exact hbound j' (by simpa using hj) hcj
        · refine Or.inr ⟨k' + 1, by simpa using hk', by omega, by simpa using hck',
            by simpa using hmk', ?_, ?_, hcar'⟩
          · intro j hj hcj
            cases j with
            | zero => exact absurd (by simpa using hcj) hnotc
            | succ j' =>
              simp only [List.getD_cons_succ] at hcj ⊢
              exact hbnd' j' (by simpa using hj) hcj
          · intro j hj hcj
            cases j with
            | zero => exact absurd (by simpa using hcj) hnotc
            | succ j' =>
              simp only [List.getD_cons_succ] at hcj ⊢
              exact hstr' j' (by omega) hcj

theorem scan_nofit_charac (bs : Int) (l : List Int) :
    ∀ (best : Option (Nat × Int)) (idx : Nat),
      ballocScan bs l best idx = .nofit →
      best = none ∧ ∀ k < l.length, ¬ isCand bs (l.getD k 0) := by
  induction l with
  | nil =>
    intro best idx h
    match best with
    | none => exact ⟨rfl, by simp⟩
    | some (j, b0) => simp [ballocScan] at h
  | cons b rest ih =>
    intro best idx h
    rw [ballocScan.eq_def] at h
    simp only at h
    by_cases hfree : b % 8 = 0 ∨ b % 8 = 2
    · rw [if_pos hfree] at h
      by_cases hge : bs ≤ msize b
      · rw [if_pos hge] at h
        by_cases heq : msize b = bs
        · rw [if_pos heq] at h; simp at h
        · rw [if_neg heq] at h
          match hb : best with
          | none =>
            simp only at h
            obtain ⟨hco, _⟩ := ih _ _ h
            simp at hco
          | some jb =>
            obtain ⟨j0, bf0⟩ := jb
            simp only at h
            by_cases hlt : msize b < bf0
            · rw [if_pos hlt] at h
              obtain ⟨hco, _⟩ := ih _ _ h
              simp at hco
            · rw [if_neg hlt] at h
              obtain ⟨hco, _⟩ := ih _ _ h
              simp at hco
      · rw [if_neg hge] at h
        obtain ⟨hbe, hnc⟩ := ih _ _ h
        refine ⟨hbe, ?_⟩
        intro k hk
        cases k with
        | zero => simp only [List.getD_cons_zero]; exact fun hx => hge hx.2
        | succ k' => simpa using hnc k' (by simpa using hk)
    · rw [if_neg hfree] at h
      obtain ⟨hbe, hnc⟩ := ih _ _ h
      refine ⟨hbe, ?_⟩
      intro k hk
      cases k with
      | zero => simp only [List.getD_cons_zero]; exact fun hx => hfree hx.1
      | succ k' => simpa using hnc k' (by simpa using hk)

theorem balloc_exact_eq (s : AllocState) (r : Int) (h1 : 0 < r) (h2 : r ≤ s.alloc_size)
    (i : Nat) (hi : i < s.blocks.length)
    (hex : isExact (block_size r) (s.blocks.getD i 0))
    (hfirst : ∀ j < i, ¬ isExact (block_size r) (s.blocks.getD j 0)) :
    balloc r s = (some (s.heap_start + offsetOf s.blocks i + 4),
      { s with blocks := exactUpdate s.blocks i }) := by
  have hval : ¬ (r ≤ 0 ∨ s.alloc_size < r) := by omega
  obtain ⟨res, hs⟩ : ∃ res, ballocScan (block_size r) s.blocks none 0 = res := ⟨_, rfl⟩
  cases res with
  | exact i0 =>
    obtain ⟨k, hk, hik, hx, hprev⟩ := scan_exact_charac _ _ _ _ _ hs
    have hki : k = i := by
      rcases Nat.lt_trichotomy k i with hlt | hlt | hlt
      · exact absurd hx (hfirst k hlt)
      · exact hlt
      · exact absurd hex (hprev i hlt)
    have hi0 : i0 = i := by omega
    subst hi0
    simp only [balloc, if_neg hval, hs, exactUpdate]
  | best i0 bf =>
    obtain ⟨hnoex, _⟩ := scan_best_charac _ _ _ _ _ _ hs
    exact absurd hex (hnoex i hi)
  | nofit =>
    obtain ⟨_, hnc⟩ := scan_nofit_charac _ _ _ _ hs
    exact absurd hex.cand (hnc i hi)

theorem balloc_split_eq (s : AllocState) (r : Int) (h1 : 0 < r) (h2 : r ≤ s.alloc_size)
    (hnoex : ∀ j < s.blocks.length, ¬ isExact (block_size r) (s.blocks.getD j 0))
    (i : Nat) (hi : i < s.blocks.length)
    (hcand : isCand (block_size r) (s.blocks.getD i 0))
    (hmin : ∀ j < s.blocks.length, isCand (block_size r) (s.blocks.getD j 0) →
      msize (s.blocks.getD i 0) ≤ msize (s.blocks.getD j 0))
    (hstrict : ∀ j < i, isCand (block_size r) (s.blocks.getD j 0) →
      msize (s.blocks.getD i 0) < msize (s.blocks.getD j 0)) :
    balloc r s = (some (s.heap_start + offsetOf s.blocks i + 4),
      { s with blocks := splitUpdate s.blocks i (block_size r) }) := by
  have hval : ¬ (r ≤ 0 ∨ s.alloc_size < r) := by omega
  obtain ⟨res, hs⟩ : ∃ res, ballocScan (block_size r) s.blocks none 0 = res := ⟨_, rfl⟩
  cases res with
  | exact i0 =>
    obtain ⟨k, hk, _, hx, _⟩ := scan_exact_charac _ _ _ _ _ hs
    exact absurd hx (hnoex k hk)
  | best i0 bf =>
    obtain ⟨_, hrec⟩ := scan_best_charac _ _ _ _ _ _ hs
    rcases hrec with ⟨hbe, _⟩ | ⟨k, hk, hik, hck, hmk, hbnd, hstr, _⟩
    · exact absurd hbe (by simp)
    · have hki : k = i := by
        rcases Nat.lt_trichotomy k i with hlt | hlt | hlt
        · have h1' := hstrict k hlt hck
          have h2' := hbnd i hi hcand
          omega
        · exact hlt
        · have h1' := hstr i hlt hcand
          have h2' := hmin k hk hck
          omega
      have hi0 : i0 = i := by omega
      subst hi0
      have hbf : bf = msize (s.blocks.getD i0 0) := by rw [← hki]; omega
      simp only [balloc, if_neg hval, hs, splitUpdate, ← hbf]
  | nofit =>
    obtain ⟨_, hnc⟩ := scan_nofit_charac _ _ _ _ hs
    exact absurd hcand (hnc i hi)

theorem balloc_nofit_eq (s : AllocState) (r : Int) (h1 : 0 < r) (h2 : r ≤ s.alloc_size)
    (h : ∀ j < s.blocks.length, ¬ isCand (block_size r) (s.blocks.getD j 0)) :
    balloc r s = (none, s) := by
  have hval : ¬ (r ≤ 0 ∨ s.alloc_size < r) := by omega
  obtain ⟨res, hs⟩ : ∃ res, ballocScan (block_size r) s.blocks none 0 = res := ⟨_, rfl⟩
  cases res with
  | exact i0 =>
    obtain ⟨k, hk, _, hx, _⟩ := scan_exact_charac _ _ _ _ _ hs
    exact absurd hx.cand (h k hk)
  | best i0 bf =>
    obtain ⟨_, hrec⟩ := scan_best_charac _ _ _ _ _ _ hs
    rcases hrec with ⟨hbe, _⟩ | ⟨k, hk, _, hck, _⟩
    · exact absurd hbe (by simp)
    · exact absurd hck (h k hk)
  | nofit => simp only [balloc, if_neg hval, hs]

theorem balloc_fail_frame (r : Int) (s : AllocState) (h : (balloc r s).1 = none) :
    (balloc r s).2 = s := by
  by_cases hval : r ≤ 0 ∨ s.alloc_size < r
  · simp only [balloc, if_pos hval]
  · obtain ⟨res, hs⟩ : ∃ res, ballocScan (block_size r) s.blocks none 0 = res := ⟨_, rfl⟩
    cases res with
    | exact i0 => simp [balloc, if_neg hval, hs] at h
    | best i0 bf => simp [balloc, if_neg hval, hs] at h
    | nofit => simp only [balloc, if_neg hval, hs]

theorem bfree_cases (p : Int) (s : AllocState) :
    bfree p s = (-1, s) ∨ (bfree p s).1 = 0 := by
  unfold bfree
  split
  · exact Or.inl rfl
  · split
    · exact Or.inl rfl
    · split
      · exact Or.inl rfl
      · cases hloc : locate s.blocks (p - 4 - s.heap_start) with
        | none => exact Or.inl rfl
        | some i =>
          dsimp only
          split
          · exact Or.inl rfl
          · exact Or.inr rfl

theorem bfree_fail_frame (p : Int) (s : AllocState) (h : (bfree p s).1 = -1) :
    (bfree p s).2 = s := by
  rcases bfree_cases p s with he | he
  · rw [he]
  · rw [he] at h
    exact absurd h (by norm_num)

theorem init_heap_fail_frame (a b : Int) (c : Bool) (d : Option Int) (s : AllocState)
    (h : (init_heap a b c d s).1 = -1) :
    (init_heap a b c d s).2.blocks = s.blocks ∧
    (init_heap a b c d s).2.heap_start = s.heap_start ∧
    (init_heap a b c d s).2.allocated_once = s.allocated_once := by
  by_cases h1 : s.allocated_once
  · refine ⟨?_, ?_, ?_⟩ <;> simp [init_heap, h1]
  · by_cases h2 : a ≤ 0
    · refine ⟨?_, ?_, ?_⟩ <;> simp [init_heap, h1, h2]
    · have h1f : s.allocated_once = false := by simpa using h1
      cases c with
      | false => refine ⟨?_, ?_, ?_⟩ <;> simp [init_heap, h1, h2]
      | true =>
        cases d with
        | none => refine ⟨?_, ?_, ?_⟩ <;> simp [init_heap, h1, h2, h1f]
        | some p =>
          simp [init_heap, h1, h2] at h

theorem init_heap_validation_frame (a b : Int) (c : Bool) (d : Option Int) (s : AllocState)
    (h : s.allocated_once = true ∨ a ≤ 0) :
    init_heap a b c d s = (-1, s) := by
  rcases h with h | h
  · simp only [init_heap, if_pos h]
  · by_cases h1 : s.allocated_once
    · simp only [init_heap, if_pos h1]
    · simp only [init_heap, if_neg h1, if_pos h]

theorem pbit_iff (b : Int) : pbit b = true ↔ 2 ≤ b % 4 := by simp [pbit]

theorem abit_iff (b : Int) : abit b = true ↔ b % 2 = 1 := by simp [abit]

theorem isFree_iff (b : Int) : isFree b = true ↔ b % 2 = 0 := by simp [isFree]

theorem sumSizes_append (u v : List Int) :
    sumSizes (u ++ v) = sumSizes u + sumSizes v := by
  simp [sumSizes]

theorem sumSizes_cons (b : Int) (l : List Int) :
    sumSizes (b :: l) = msize b + sumSizes l := by
  simp [sumSizes]

theorem sumSizes_nonneg (l : List Int) (h : ∀ b ∈ l, 8 ≤ msize b) :
    0 ≤ sumSizes l := by
  induction l with
  | nil => simp [sumSizes]
  | cons b rest ih =>
    rw [sumSizes_cons]
    have h1 := h b (by simp)
    have h2 := ih (fun x hx => h x (by simp [hx]))
    omega

/-- Decompose a list at a valid index into prefix, element, suffix. -/
theorem eq_take_cons_drop : ∀ (l : List Int) (i : Nat), i < l.length →
    l = l.take i ++ l.getD i 0 :: l.drop (i + 1) := by
  intro l
  induction l with
  | nil => intro i h; simp at h
  | cons b rest ih =>
    intro i h
    cases i with
    | zero => simp
    | succ i' =>
      have := ih i' (by simpa using h)
      calc b :: rest = b :: (rest.take i' ++ rest.getD i' 0 :: rest.drop (i' + 1)) := by
            rw [← this]
        _ = (b :: rest).take (i' + 1) ++ (b :: rest).getD (i' + 1) 0 ::
              (b :: rest).drop (i' + 1 + 1) := by simp

theorem getD_append_length (u : List Int) (x : Int) (v : List Int) :
    (u ++ x :: v).getD u.length 0 = x := by
  induction u with
  | nil => simp
  | cons b rest ih => simpa using ih

theorem getD_append_lt (u : List Int) (v : List Int) (j : Nat) (h : j < u.length) :
    (u ++ v).getD j 0 = u.getD j 0 := by
  induction u generalizing j with
  | nil => simp at h
  | cons b rest ih =>
    cases j with
    | zero => simp
    | succ j' => simpa using ih j' (by simpa using h)

theorem set_append_length (u : List Int) (x y : Int) (v : List Int) :
    (u ++ x :: v).set u.length y = u ++ y :: v := by
  induction u with
  | nil => simp
  | cons b rest ih => simp [ih]

theorem paAfter_nil (pa : Bool) : paAfter pa [] = pa := rfl

theorem paAfter_cons (pa : Bool) (b : Int) (u : List Int) :
    paAfter pa (b :: u) = paAfter (abit b) u := rfl

theorem chainOk_append (pa : Bool) (u v : List Int) :
    chainOk pa (u ++ v) = (chainOk pa u && chainOk (paAfter pa u) v) := by
  induction u generalizing pa with
  | nil => simp [chainOk, paAfter_nil]
  | cons b rest ih =>
    simp only [List.cons_append, chainOk, List.append_eq, ih, paAfter_cons, Bool.and_assoc]

theorem set_decomp : ∀ (l : List Int) (i : Nat), i < l.length → ∀ (x : Int),
    l.set i x = l.take i ++ x :: l.drop (i + 1) := by
  intro l
  induction l with
  | nil => intro i h; simp at h
  | cons b rest ih =>
    intro i h x
    cases i with
    | zero => simp
    | succ i' => simp [ih i' (by simpa using h) x]

theorem getD_append_right (u v : List Int) (k : Nat) :
    (u ++ v).getD (u.length + k) 0 = v.getD k 0 := by
  induction u with
  | nil => simp
  | cons b rest ih => simpa [Nat.succ_add] using ih

theorem set_append_succ_length (u : List Int) (x y : Int) (v : List Int) :
    (u ++ x :: v).set (u.length + 1) y = u ++ x :: v.set 0 y := by
  induction u with
  | nil => simp
  | cons b rest ih => simp [ih]

theorem getD_append_idx (u v : List Int) (n k : Nat) (h : n = u.length + k) :
    (u ++ v).getD n 0 = v.getD k 0 := by
  subst h; exact getD_append_right u v k

theorem set_append_idx (u : List Int) (x y : Int) (v : List Int) (n : Nat) (h : n = u.length) :
    (u ++ x :: v).set n y = u ++ y :: v := by
  subst h; exact set_append_length u x y v

theorem set_append_succ_idx (u : List Int) (x y : Int) (v : List Int) (n : Nat)
    (h : n = u.length + 1) :
    (u ++ x :: v).set n y = u ++ x :: v.set 0 y := by
  subst h; exact set_append_succ_length u x y v

theorem block_size_mod (r : Int) : block_size r % 8 = 0 := by
  unfold block_size
  split <;> omega

theorem block_size_ge (r : Int) (h : 0 < r) : 8 ≤ block_size r := by
  unfold block_size
  split <;> omega

theorem block_size_ge_payload (r : Int) : r + 4 ≤ block_size r := by
  unfold block_size
  split <;> omega

theorem chainOk_cons (pa : Bool) (b : Int) (l : List Int) :
    chainOk pa (b :: l) = ((pbit b == pa) && chainOk (abit b) l) := rfl

/-- Effect of the exact-match path on a block in the middle of the list:
the invariants are preserved and the sizes are unchanged. -/
theorem exact_mid_wf (u : List Int) (b c : Int) (w : List Int)
    (hall : ∀ x ∈ u ++ b :: c :: w, x % 8 ≤ 3 ∧ 8 ≤ msize x)
    (hch : chainOk true (u ++ b :: c :: w) = true)
    (hfree : b % 8 = 0 ∨ b % 8 = 2) :
    (∀ x ∈ u ++ (b + 1) :: (c + 2) :: w, x % 8 ≤ 3 ∧ 8 ≤ msize x) ∧
    chainOk true (u ++ (b + 1) :: (c + 2) :: w) = true ∧
    sumSizes (u ++ (b + 1) :: (c + 2) :: w) = sumSizes (u ++ b :: c :: w) := by
  have hb := hall b (by simp)
  have hc := hall c (by simp)
  rw [chainOk_append, Bool.and_eq_true, chainOk_cons, Bool.and_eq_true,
    chainOk_cons, Bool.and_eq_true, beq_iff_eq, beq_iff_eq] at hch
  obtain ⟨hchu, hpb, hpc, hchw⟩ := hch
  have hab : abit b = false := by simp only [abit, decide_eq_false_iff_not]; omega
  have hpc4 : c % 4 < 2 := by
    rw [hab] at hpc
    simp only [pbit, decide_eq_false_iff_not] at hpc
    omega
  refine ⟨?_, ?_, ?_⟩
  · intro x hx
    simp only [List.mem_append, List.mem_cons] at hx
    rcases hx with hx | hx | hx | hx
    · exact hall x (by simp [hx])
    · subst hx; unfold msize at *; omega
    · subst hx; unfold msize at *; omega
    · exact hall x (by simp [hx])
  · rw [chainOk_append, Bool.and_eq_true, chainOk_cons, Bool.and_eq_true,
      chainOk_cons, Bool.and_eq_true, beq_iff_eq, beq_iff_eq]
    refine ⟨hchu, ?_, ?_, ?_⟩
    · rw [← hpb]
      simp only [pbit, decide_eq_decide]
      omega
    · have h1 : pbit (c + 2) = true := by simp only [pbit, decide_eq_true_iff]; omega
      have h2 : abit (b + 1) = true := by simp only [abit, decide_eq_true_iff]; omega
      rw [h1, h2]
    · have h3 : abit (c + 2) = abit c := by simp only [abit, decide_eq_decide]; omega
      rw [h3]
      exact hchw
  · rw [sumSizes_append, sumSizes_append, sumSizes_cons, sumSizes_cons,
      sumSizes_cons, sumSizes_cons]
    unfold msize
    omega

/-- Effect of the exact-match path on the last block of the list. -/
theorem exact_last_wf (u : List Int) (b : Int)
    (hall : ∀ x ∈ u ++ [b], x % 8 ≤ 3 ∧ 8 ≤ msize x)
    (hch : chainOk true (u ++ [b]) = true)
    (hfree : b % 8 = 0 ∨ b % 8 = 2) :
    (∀ x ∈ u ++ [b + 1], x % 8 ≤ 3 ∧ 8 ≤ msize x) ∧
    chainOk true (u ++ [b + 1]) = true ∧
    sumSizes (u ++ [b + 1]) = sumSizes (u ++ [b]) := by
  have hb := hall b (by simp)
  rw [chainOk_append, Bool.and_eq_true, chainOk_cons, Bool.and_eq_true, beq_iff_eq] at hch
  obtain ⟨hchu, hpb, -⟩ := hch
  refine ⟨?_, ?_, ?_⟩
  · intro x hx
    simp only [List.mem_append, List.mem_cons, List.not_mem_nil, or_false] at hx
    rcases hx with hx | hx
    · exact hall x (by simp [hx])
    · subst hx; unfold msize at *; omega
  · rw [chainOk_append, Bool.and_eq_true, chainOk_cons, Bool.and_eq_true, beq_iff_eq]
    refine ⟨hchu, ?_, rfl⟩
    rw [← hpb]
    simp only [pbit, decide_eq_decide]
    omega
  · rw [sumSizes_append, sumSizes_append, sumSizes_cons, sumSizes_cons]
    unfold msize
    omega

/-- Effect of the split path: the chosen free block of size `bf` becomes an
allocated block of size `bs` followed by a free block of size `bf - bs`;
the invariants are preserved and the total size is unchanged. -/
theorem split_wf (u : List Int) (b : Int) (v : List Int) (bs : Int)
    (hall : ∀ x ∈ u ++ b :: v, x % 8 ≤ 3 ∧ 8 ≤ msize x)
    (hch : chainOk true (u ++ b :: v) = true)
    (hfree : b % 8 = 0 ∨ b % 8 = 2)
    (hbs8 : bs % 8 = 0) (hbs : 8 ≤ bs) (hlt : bs < msize b) :
    (∀ x ∈ u ++ (bs + b % 8 + 1) :: (msize b - bs + 2) :: v, x % 8 ≤ 3 ∧ 8 ≤ msize x) ∧
    chainOk true (u ++ (bs + b % 8 + 1) :: (msize b - bs + 2) :: v) = true ∧
    sumSizes (u ++ (bs + b % 8 + 1) :: (msize b - bs + 2) :: v) = sumSizes (u ++ b :: v) := by
  have hb := hall b (by simp)
  rw [chainOk_append, Bool.and_eq_true, chainOk_cons, Bool.and_eq_true, beq_iff_eq] at hch
  obtain ⟨hchu, hpb, hchv⟩ := hch
  have hmb : msize b % 8 = 0 := by unfold msize; omega
  refine ⟨?_, ?_, ?_⟩
  · intro x hx
    simp only [List.mem_append, List.mem_cons] at hx
    rcases hx with hx | hx | hx | hx
    · exact hall x (by simp [hx])
    · subst hx; unfold msize at *; omega
    · subst hx; unfold msize at *; omega
    · exact hall x (by simp [hx])
  · rw [chainOk_append, Bool.and_eq_true, chainOk_cons, Bool.and_eq_true,
      chainOk_cons, Bool.and_eq_true, beq_iff_eq, beq_iff_eq]
    refine ⟨hchu, ?_, ?_, ?_⟩
    · rw [← hpb]
      simp only [pbit, decide_eq_decide]
      omega
    · have h1 : pbit (msize b - bs + 2) = true := by
        simp only [pbit, decide_eq_true_iff]
        unfold msize
        omega
      have h2 : abit (bs + b % 8 + 1) = true := by
        simp only [abit, decide_eq_true_iff]
        omega
      rw [h1, h2]
    · have h3 : abit (msize b - bs + 2) = abit b := by
        simp only [abit, decide_eq_decide]
        unfold msize
        omega
      rw [h3]
      exact hchv
  · rw [sumSizes_append, sumSizes_append, sumSizes_cons, sumSizes_cons, sumSizes_cons]
    unfold msize
    omega

theorem wf_unfold (s : AllocState) :
    WF s ↔ ((∀ b ∈ s.blocks, b % 8 ≤ 3 ∧ 8 ≤ msize b) ∧
      chainOk true s.blocks = true ∧
      sumSizes s.blocks = s.alloc_size ∧
      s.heap_start % 8 = 4 ∧ 0 < s.heap_start ∧
      s.alloc_size % 8 = 0 ∧ 8 ≤ s.alloc_size ∧
      s.allocated_once = true) := Iff.rfl

theorem wf_balloc (r : Int) (s : AllocState) (hWF : WF s) : WF (balloc r s).2 := by
  obtain ⟨hall, hch, hsum, hhs8, hhs0, has8, haspos, honce⟩ := hWF
  by_cases hval : r ≤ 0 ∨ s.alloc_size < r
  · have he : balloc r s = (none, s) := by simp only [balloc, if_pos hval]
    rw [he]
    exact ⟨hall, hch, hsum, hhs8, hhs0, has8, haspos, honce⟩
  · have hr0 : 0 < r := by omega
    obtain ⟨res, hs⟩ : ∃ res, ballocScan (block_size r) s.blocks none 0 = res := ⟨_, rfl⟩
    cases res with
    | exact i =>
      obtain ⟨k, hk, hik, hx, -⟩ := scan_exact_charac _ _ _ _ _ hs
      have hik' : i = k := by omega
      subst hik'
      have hfree : s.blocks.getD i 0 % 8 = 0 ∨ s.blocks.getD i 0 % 8 = 2 := hx.1
      have he : (balloc r s).2 = { s with blocks := exactUpdate s.blocks i } := by
        simp only [balloc, if_neg hval, hs, exactUpdate]
      rw [he]
      have hlen_take : (s.blocks.take i).length = i := by
        rw [List.length_take]; omega
      have hdec := eq_take_cons_drop s.blocks i hk
      by_cases hsucc : i + 1 < s.blocks.length
      · obtain ⟨c, w, hv⟩ : ∃ c w, s.blocks.drop (i + 1) = c :: w := by
          cases hvv : s.blocks.drop (i + 1) with
          | nil =>
            exfalso
            have := congrArg List.length hvv
            rw [List.length_drop] at this
            simp at this
            omega
          | cons c w => exact ⟨c, w, rfl⟩
        have hdec2 : s.blocks = s.blocks.take i ++ s.blocks.getD i 0 :: c :: w := by
          conv_lhs => rw [hdec]
          rw [hv]
        have hupd : exactUpdate s.blocks i =
            s.blocks.take i ++ (s.blocks.getD i 0 + 1) :: (c + 2) :: w := by
          unfold exactUpdate
          rw [if_pos hsucc, set_decomp s.blocks i hk, hv]
          rw [getD_append_idx _ _ _ 1 (by omega)]
          rw [set_append_succ_idx _ _ _ _ _ (by omega)]
          simp
        have H := exact_mid_wf (s.blocks.take i) (s.blocks.getD i 0) c w
          (by rw [← hdec2]; exact hall) (by rw [← hdec2]; exact hch) hfree
        refine ⟨?_, ?_, ?_, hhs8, hhs0, has8, haspos, honce⟩
        · show ∀ x ∈ exactUpdate s.blocks i, x % 8 ≤ 3 ∧ 8 ≤ msize x
          rw [hupd]; exact H.1
        · show chainOk true (exactUpdate s.blocks i) = true
          rw [hupd]; exact H.2.1
        · show sumSizes (exactUpdate s.blocks i) = s.alloc_size
          rw [hupd, H.2.2, ← hdec2]
          exact hsum
      · have hv : s.blocks.drop (i + 1) = [] := by
          apply List.drop_eq_nil_of_le
          omega
        have hdec2 : s.blocks = s.blocks.take i ++ [s.blocks.getD i 0] := by
          conv_lhs => rw [hdec]
          rw [hv]
        have hupd : exactUpdate s.blocks i =
            s.blocks.take i ++ [s.blocks.getD i 0 + 1] := by
          unfold exactUpdate
          rw [if_neg hsucc, set_decomp s.blocks i hk, hv]
        have H := exact_last_wf (s.blocks.take i) (s.blocks.getD i 0)
          (by rw [← hdec2]; exact hall) (by rw [← hdec2]; exact hch) hfree
        refine ⟨?_, ?_, ?_, hhs8, hhs0, has8, haspos, honce⟩
        · show ∀ x ∈ exactUpdate s.blocks i, x % 8 ≤ 3 ∧ 8 ≤ msize x
          rw [hupd]; exact H.1
        · show chainOk true (exactUpdate s.blocks i) = true
          rw [hupd]; exact H.2.1
        · show sumSizes (exactUpdate s.blocks i) = s.alloc_size
          rw [hupd, H.2.2, ← hdec2]
          exact hsum
    | best i bf =>
      obtain ⟨hnoex, hrec⟩ := scan_best_charac _ _ _ _ _ _ hs
      rcases hrec with ⟨hbe, -⟩ | ⟨k, hk, hik, hck, hmk, -, -, -⟩
      · exact absurd hbe (by simp)
      · have hik' : i = k := by omega
        subst hik'
        have hfree : s.blocks.getD i 0 % 8 = 0 ∨ s.blocks.getD i 0 % 8 = 2 := hck.1
        have hlt : block_size r < msize (s.blocks.getD i 0) := by
          rcases lt_or_eq_of_le hck.2 with h | h
          · exact h
          · exact absurd ⟨hck.1, h.symm⟩ (hnoex i hk)
        have hbf : bf = msize (s.blocks.getD i 0) := hmk.symm
        subst hbf
        have he : (balloc r s).2 = { s with blocks :=
            (s.blocks.take i ++ (block_size r + s.blocks.getD i 0 % 8 + 1) ::
              (msize (s.blocks.getD i 0) - block_size r + 2) :: s.blocks.drop (i + 1)) } := by
          simp only [balloc, if_neg hval, hs, List.cons_append, List.nil_append,
            List.append_assoc]
        rw [he]
        have hdec := eq_take_cons_drop s.blocks i hk
        have H := split_wf (s.blocks.take i) (s.blocks.getD i 0) (s.blocks.drop (i + 1))
          (block_size r)
          (by rw [← hdec]; exact hall) (by rw [← hdec]; exact hch) hfree
          (block_size_mod r) (block_size_ge r hr0) hlt
        refine ⟨H.1, H.2.1, ?_, hhs8, hhs0, has8, haspos, honce⟩
        show sumSizes _ = s.alloc_size
        rw [H.2.2, ← hdec]
        exact hsum
    | nofit =>
      have he : balloc r s = (none, s) := by simp only [balloc, if_neg hval, hs]
      rw [he]
      exact ⟨hall, hch, hsum, hhs8, hhs0, has8, haspos, honce⟩

theorem bfree_succ_eq (p : Int) (s : AllocState) (i : Nat)
    (h0 : ¬ p = 0) (h8 : p % 8 = 0)
    (hb : ¬ (p < s.heap_start ∨ s.heap_start + s.alloc_size < p))
    (hloc : locate s.blocks (p - 4 - s.heap_start) = some i)
    (hr : ¬ (s.blocks.getD i 0 % 8 = 0 ∨ s.blocks.getD i 0 % 8 = 2)) :
    bfree p s = (0, { s with blocks := freeUpdate s.blocks i }) := by
  simp only [bfree, if_neg h0, if_neg (not_not_intro h8), if_neg hb, hloc, if_neg hr,
    freeUpdate]

theorem bfree_fail_eq (p : Int) (s : AllocState)
    (h : p = 0 ∨ ¬ p % 8 = 0 ∨ p < s.heap_start ∨ s.heap_start + s.alloc_size < p ∨
      locate s.blocks (p - 4 - s.heap_start) = none ∨
      (∃ i, locate s.blocks (p - 4 - s.heap_start) = some i ∧
        (s.blocks.getD i 0 % 8 = 0 ∨ s.blocks.getD i 0 % 8 = 2))) :
    bfree p s = (-1, s) := by
  by_cases h0 : p = 0
  · simp only [bfree, if_pos h0]
  · by_cases h8 : p % 8 = 0
    · by_cases hb : p < s.heap_start ∨ s.heap_start + s.alloc_size < p
      · simp only [bfree, if_neg h0, if_neg (not_not_intro h8), if_pos hb]
      · cases hloc : locate s.blocks (p - 4 - s.heap_start) with
        | none => simp only [bfree, if_neg h0, if_neg (not_not_intro h8), if_neg hb, hloc]
        | some i =>
          have hr : s.blocks.getD i 0 % 8 = 0 ∨ s.blocks.getD i 0 % 8 = 2 := by
            rcases h with h | h | h | h | h | ⟨j, hj, hrj⟩
            · exact absurd h h0
            · exact absurd h8 h
            · exact absurd (Or.inl h) hb
            · exact absurd (Or.inr h) hb
            · rw [hloc] at h; cases h
            · rw [hloc] at hj
              obtain rfl : j = i := by cases hj; rfl
              exact hrj
          simp only [bfree, if_neg h0, if_neg (not_not_intro h8), if_neg hb, hloc, if_pos hr]
    · simp only [bfree, if_neg h0, if_pos h8]

theorem locate_some_spec : ∀ (l : List Int) (off : Int) (i : Nat),
    locate l off = some i → i < l.length ∧ offsetOf l i = off := by
  intro l
  induction l with
  | nil => intro off i h; simp [locate] at h
  | cons b rest ih =>
    intro off i h
    rw [locate] at h
    by_cases hz : off = 0
    · rw [if_pos hz] at h
      cases h
      subst hz
      exact ⟨by simp, by simp [offsetOf, sumSizes]⟩
    · rw [if_neg hz] at h
      cases hrec : locate rest (off - msize b) with
      | none => rw [hrec] at h; cases h
      | some j =>
        rw [hrec] at h
        cases h
        obtain ⟨hj, hoff⟩ := ih _ _ hrec
        refine ⟨by simpa using hj, ?_⟩
        show offsetOf (b :: rest) (j + 1) = off
        have : (b :: rest).take (j + 1) = b :: rest.take j := by simp
        rw [offsetOf, this, sumSizes_cons]
        rw [offsetOf] at hoff
        omega

/-- Effect of a successful `bfree` on a block in the middle of the list. -/
theorem free_mid_wf (u : List Int) (b c : Int) (w : List Int)
    (hall : ∀ x ∈ u ++ b :: c :: w, x % 8 ≤ 3 ∧ 8 ≤ msize x)
    (hch : chainOk true (u ++ b :: c :: w) = true)
    (halloc : ¬ (b % 8 = 0 ∨ b % 8 = 2)) :
    (∀ x ∈ u ++ (b - 1) :: (c - 2) :: w, x % 8 ≤ 3 ∧ 8 ≤ msize x) ∧
    chainOk true (u ++ (b - 1) :: (c - 2) :: w) = true ∧
    sumSizes (u ++ (b - 1) :: (c - 2) :: w) = sumSizes (u ++ b :: c :: w) := by
  have hb := hall b (by simp)
  have hc := hall c (by simp)
  have hbr : b % 8 = 1 ∨ b % 8 = 3 := by omega
  rw [chainOk_append, Bool.and_eq_true, chainOk_cons, Bool.and_eq_true,
    chainOk_cons, Bool.and_eq_true, beq_iff_eq, beq_iff_eq] at hch
  obtain ⟨hchu, hpb, hpc, hchw⟩ := hch
  have hab : abit b = true := by simp only [abit, decide_eq_true_iff]; omega
  have hpc4 : 2 ≤ c % 4 := by
    rw [hab] at hpc
    simp only [pbit, decide_eq_true_iff] at hpc
    omega
  refine ⟨?_, ?_, ?_⟩
  · intro x hx
    simp only [List.mem_append, List.mem_cons] at hx
    rcases hx with hx | hx | hx | hx
    · exact hall x (by simp [hx])
    · subst hx; unfold msize at *; omega
    · subst hx; unfold msize at *; omega
    · exact hall x (by simp [hx])
  · rw [chainOk_append, Bool.and_eq_true, chainOk_cons, Bool.and_eq_true,
      chainOk_cons, Bool.and_eq_true, beq_iff_eq, beq_iff_eq]
    refine ⟨hchu, ?_, ?_, ?_⟩
    · rw [← hpb]
      simp only [pbit, decide_eq_decide]
      omega
    · have h1 : pbit (c - 2) = false := by simp only [pbit, decide_eq_false_iff_not]; omega
      have h2 : abit (b - 1) = false := by simp only [abit, decide_eq_false_iff_not]; omega
      rw [h1, h2]
    · have h3 : abit (c - 2) = abit c := by simp only [abit, decide_eq_decide]; omega
      rw [h3]
      exact hchw
  · rw [sumSizes_append, sumSizes_append, sumSizes_cons, sumSizes_cons,
      sumSizes_cons, sumSizes_cons]
    unfold msize
    omega

/-- Effect of a successful `bfree` on the last block of the list. -/
theorem free_last_wf (u : List Int) (b : Int)
    (hall : ∀ x ∈ u ++ [b], x % 8 ≤ 3 ∧ 8 ≤ msize x)
    (hch : chainOk true (u ++ [b]) = true)
    (halloc : ¬ (b % 8 = 0 ∨ b % 8 = 2)) :
    (∀ x ∈ u ++ [b - 1], x % 8 ≤ 3 ∧ 8 ≤ msize x) ∧
    chainOk true (u ++ [b - 1]) = true ∧
    sumSizes (u ++ [b - 1]) = sumSizes (u ++ [b]) := by
  have hb := hall b (by simp)
  have hbr : b % 8 = 1 ∨ b % 8 = 3 := by omega
  rw [chainOk_append, Bool.and_eq_true, chainOk_cons, Bool.and_eq_true, beq_iff_eq] at hch
  obtain ⟨hchu, hpb, -⟩ := hch
  refine ⟨?_, ?_, ?_⟩
  · intro x hx
    simp only [List.mem_append, List.mem_cons, List.not_mem_nil, or_false] at hx
    rcases hx with hx | hx
    · exact hall x (by simp [hx])
    · subst hx; unfold msize at *; omega
  · rw [chainOk_append, Bool.and_eq_true, chainOk_cons, Bool.and_eq_true, beq_iff_eq]
    refine ⟨hchu, ?_, rfl⟩
    rw [← hpb]
    simp only [pbit, decide_eq_decide]
    omega
  · rw [sumSizes_append, sumSizes_append, sumSizes_cons, sumSizes_cons]
    unfold msize
    omega

theorem freeUpdate_decomp (u : List Int) (b c : Int) (w : List Int) (n : Nat)
    (hn : n = u.length) :
    freeUpdate (u ++ b :: c :: w) n = u ++ (b - 1) :: (c - 2) :: w := by
  subst hn
  unfold freeUpdate
  have hlen : u.length + 1 < (u ++ b :: c :: w).length := by simp
  rw [if_pos hlen]
  rw [getD_append_idx u (b :: c :: w) (u.length + 1) 1 rfl]
  rw [set_append_succ_idx u b _ (c :: w) (u.length + 1) rfl]
  rw [show (c :: w).set 0 ((b :: c :: w).getD 1 0 - 2) = (c - 2) :: w by simp]
  rw [getD_append_idx u (b :: c :: w) u.length 0 rfl]
  rw [set_append_idx u b _ ((c - 2) :: w) u.length rfl]
  simp

theorem freeUpdate_last (u : List Int) (b : Int) (n : Nat) (hn : n = u.length) :
    freeUpdate (u ++ [b]) n = u ++ [b - 1] := by
  subst hn
  unfold freeUpdate
  have hlen : ¬ (u.length + 1 < (u ++ [b]).length) := by simp
  rw [if_neg hlen]
  rw [getD_append_idx u [b] u.length 0 rfl]
  rw [set_append_idx u b _ [] u.length rfl]
  simp

theorem wf_bfree (p : Int) (s : AllocState) (hWF : WF s) : WF (bfree p s).2 := by
  obtain ⟨hall, hch, hsum, hhs8, hhs0, has8, haspos, honce⟩ := hWF
  by_cases h0 : p = 0
  · rw [bfree_fail_eq p s (Or.inl h0)]
    exact ⟨hall, hch, hsum, hhs8, hhs0, has8, haspos, honce⟩
  · by_cases h8 : p % 8 = 0
    · by_cases hb : p < s.heap_start ∨ s.heap_start + s.alloc_size < p
      · rw [bfree_fail_eq p s (by tauto)]
        exact ⟨hall, hch, hsum, hhs8, hhs0, has8, haspos, honce⟩
      · cases hloc : locate s.blocks (p - 4 - s.heap_start) with
        | none =>
          rw [bfree_fail_eq p s (by tauto)]
          exact ⟨hall, hch, hsum, hhs8, hhs0, has8, haspos, honce⟩
        | some i =>
          by_cases hr : s.blocks.getD i 0 % 8 = 0 ∨ s.blocks.getD i 0 % 8 = 2
          · rw [bfree_fail_eq p s (Or.inr (Or.inr (Or.inr (Or.inr (Or.inr ⟨i, hloc, hr⟩)))))]
            exact ⟨hall, hch, hsum, hhs8, hhs0, has8, haspos, honce⟩
          · rw [bfree_succ_eq p s i h0 h8 hb hloc hr]
            obtain ⟨hk, -⟩ := locate_some_spec s.blocks _ i hloc
            have hlen_take : (s.blocks.take i).length = i := by
              rw [List.length_take]; omega
            have hdec := eq_take_cons_drop s.blocks i hk
            by_cases hsucc : i + 1 < s.blocks.length
            · obtain ⟨c, w, hv⟩ : ∃ c w, s.blocks.drop (i + 1) = c :: w := by
                cases hvv : s.blocks.drop (i + 1) with
                | nil =>
                  exfalso
                  have := congrArg List.length hvv
                  rw [List.length_drop] at this
                  simp at this
                  omega
                | cons c w => exact ⟨c, w, rfl⟩
              have hdec2 : s.blocks = s.blocks.take i ++ s.blocks.getD i 0 :: c :: w := by
                conv_lhs => rw [hdec]
                rw [hv]
              have hupd : freeUpdate s.blocks i =
                  s.blocks.take i ++ (s.blocks.getD i 0 - 1) :: (c - 2) :: w := by
                conv_lhs => rw [hdec2]
                rw [freeUpdate_decomp _ _ _ _ _ (by omega)]
              have H := free_mid_wf (s.blocks.take i) (s.blocks.getD i 0) c w
                (by rw [← hdec2]; exact hall) (by rw [← hdec2]; exact hch) hr
              refine ⟨?_, ?_, ?_, hhs8, hhs0, has8, haspos, honce⟩
              · show ∀ x ∈ freeUpdate s.blocks i, x % 8 ≤ 3 ∧ 8 ≤ msize x
                rw [hupd]; exact H.1
              · show chainOk true (freeUpdate s.blocks i) = true
                rw [hupd]; exact H.2.1
              · show sumSizes (freeUpdate s.blocks i) = s.alloc_size
                rw [hupd, H.2.2, ← hdec2]
                exact hsum
            · have hv : s.blocks.drop (i + 1) = [] := by
                apply List.drop_eq_nil_of_le
                omega
              have hdec2 : s.blocks = s.blocks.take i ++ [s.blocks.getD i 0] := by
                conv_lhs => rw [hdec]
                rw [hv]
              have hupd : freeUpdate s.blocks i =
                  s.blocks.take i ++ [s.blocks.getD i 0 - 1] := by
                conv_lhs => rw [hdec2]
                rw [freeUpdate_last _ _ _ (by omega)]
              have H := free_last_wf (s.blocks.take i) (s.blocks.getD i 0)
                (by rw [← hdec2]; exact hall) (by rw [← hdec2]; exact hch) hr
              refine ⟨?_, ?_, ?_, hhs8, hhs0, has8, haspos, honce⟩
              · show ∀ x ∈ freeUpdate s.blocks i, x % 8 ≤ 3 ∧ 8 ≤ msize x
                rw [hupd]; exact H.1
              · show chainOk true (freeUpdate s.blocks i) = true
                rw [hupd]; exact H.2.1
              · show sumSizes (freeUpdate s.blocks i) = s.alloc_size
                rw [hupd, H.2.2, ← hdec2]
                exact hsum
    · rw [bfree_fail_eq p s (Or.inr (Or.inl h8))]
      exact ⟨hall, hch, hsum, hhs8, hhs0, has8, haspos, honce⟩

end P3Heap

namespace P3Heap

theorem specAbsorb_len_le (l : List Int) : (specAbsorb l).2.length ≤ l.length := by
  induction l with
  | nil => simp [specAbsorb]
  | cons c cs ih =>
    by_cases h : isFree c
    · rw [specAbsorb, if_pos h]
      exact Nat.le_succ_of_le ih
    · rw [specAbsorb, if_neg h]

theorem absorbRun_spec : ∀ (l : List Int), (∀ x ∈ l, x % 8 ≤ 3) →
    chainOk false l = true →
    absorbRun l = ((specAbsorb l).1, (specAbsorb l).2, l.getD 0 0 % 2 == 0 && !l.isEmpty) := by
  intro l
  induction l with
  | nil => intro _ _; rfl
  | cons c cs ih =>
    intro hall hch
    rw [chainOk_cons, Bool.and_eq_true, beq_iff_eq] at hch
    obtain ⟨hpc, hchcs⟩ := hch
    have hc3 : c % 8 ≤ 3 := hall c (by simp)
    have hpc4 : ¬ 2 ≤ c % 4 := by simpa [pbit] using hpc
    by_cases hf : c % 2 = 0
    · have h80 : c % 8 = 0 := by omega
      have hfr : isFree c = true := by simp [isFree, hf]
      have hab : abit c = false := by
        simp only [abit, decide_eq_false_iff_not]
        omega
      rw [hab] at hchcs
      have ihh := ih (fun x hx => hall x (by simp [hx])) hchcs
      rw [absorbRun, if_pos h80, ihh, specAbsorb, if_pos hfr]
      have hcm : c = msize c := by unfold msize; omega
      simp only [List.getD_cons_zero, List.isEmpty_cons, Bool.not_false, Bool.and_true]
      rw [show ((c % 2 == 0) = true) from by simpa using hf]
      conv_lhs => rw [hcm]
    · have h80 : ¬ c % 8 = 0 := by omega
      have hfr : ¬ isFree c = true := by simp [isFree, hf]
      rw [absorbRun, if_neg h80, specAbsorb, if_neg hfr]
      simp only [List.getD_cons_zero, List.isEmpty_cons, Bool.not_false, Bool.and_true]
      rw [show ((c % 2 == 0) = false) from by simpa using hf]

theorem specAbsorb_props : ∀ (l : List Int), (∀ x ∈ l, x % 8 ≤ 3 ∧ 8 ≤ msize x) →
    chainOk false l = true →
    (specAbsorb l).1 % 8 = 0 ∧ 0 ≤ (specAbsorb l).1 ∧
    (∀ x ∈ (specAbsorb l).2, x ∈ l) ∧
    chainOk false (specAbsorb l).2 = true ∧
    sumSizes l = (specAbsorb l).1 + sumSizes (specAbsorb l).2 ∧
    ((specAbsorb l).2 = [] ∨ isFree ((specAbsorb l).2.getD 0 0) = false) := by
  intro l
  induction l with
  | nil =>
    intro _ _
    exact ⟨rfl, le_refl 0, by simp [specAbsorb], rfl, by simp [specAbsorb, sumSizes], Or.inl rfl⟩
  | cons c cs ih =>
    intro hall hch
    rw [chainOk_cons, Bool.and_eq_true, beq_iff_eq] at hch
    obtain ⟨hpc, hchcs⟩ := hch
    have hc3 := hall c (by simp)
    by_cases hf : c % 2 = 0
    · have hfr : isFree c = true := by simp [isFree, hf]
      have hab : abit c = false := by
        simp only [abit, decide_eq_false_iff_not]
        omega
      rw [hab] at hchcs
      obtain ⟨ih1, ih2, ih3, ih4, ih5, ih6⟩ := ih (fun x hx => hall x (by simp [hx])) hchcs
      have hmc : msize c % 8 = 0 := by unfold msize; omega
      have hsz : 8 ≤ msize c := hc3.2
      rw [specAbsorb, if_pos hfr]
      simp only []
      refine ⟨by omega, by omega, ?_, ih4, ?_, ih6⟩
      · intro x hx
        exact List.mem_cons_of_mem c (ih3 x hx)
      · rw [sumSizes_cons]
        omega
    · have hfr : ¬ isFree c = true := by simp [isFree, hf]
      rw [specAbsorb, if_neg hfr]
      refine ⟨rfl, le_refl 0, fun x hx => hx, ?_, by simp, ?_⟩
      · rw [chainOk_cons, Bool.and_eq_true, beq_iff_eq]
        exact ⟨hpc, hchcs⟩
      · right
        simp only [List.getD_cons_zero]
        simpa using hfr

end P3Heap

namespace P3Heap

theorem coalesceGo_spec : ∀ (n : Nat) (l : List Int), l.length ≤ n → ∀ (pa : Bool),
    (∀ x ∈ l, x % 8 ≤ 3 ∧ 8 ≤ msize x) → chainOk pa l = true →
    coalesceGo l = (specCoalesce l, hasAdjFreePair l) := by
  intro n
  induction n with
  | zero =>
    intro l hl pa _ _
    have hnil : l = [] := List.eq_nil_of_length_eq_zero (by omega)
    subst hnil
    simp [coalesceGo, specCoalesce, hasAdjFreePair]
  | succ n ih =>
    intro l hl pa hall hch
    cases l with
    | nil => simp [coalesceGo, specCoalesce, hasAdjFreePair]
    | cons b rest =>
      rw [chainOk_cons, Bool.and_eq_true, beq_iff_eq] at hch
      obtain ⟨hpb, hchrest⟩ := hch
      have hb3 := hall b (by simp)
      by_cases hf : b % 2 = 0
      · have hfr2 : b % 8 = 0 ∨ b % 8 = 2 := by omega
        have hfree : isFree b = true := by simp [isFree, hf]
        have hab : abit b = false := by
          simp only [abit, decide_eq_false_iff_not]
          omega
        rw [hab] at hchrest
        have hAR := absorbRun_spec rest (fun x hx => (hall x (by simp [hx])).1) hchrest
        obtain ⟨hp1, hp2, hp3, hp4, hp5, hp6⟩ :=
          specAbsorb_props rest (fun x hx => hall x (by simp [hx])) hchrest
        have hlen2 : (specAbsorb rest).2.length ≤ n := by
          have := specAbsorb_len_le rest
          simp only [List.length_cons] at hl
          omega
        have hrec := ih (specAbsorb rest).2 hlen2 false
          (fun x hx => hall x (by simp [hp3 x hx])) hp4
        rw [coalesceGo, if_pos hfr2, hAR]
        simp only []
        rw [hrec, specCoalesce, if_pos hfree]
        have hval : b - b % 8 + (specAbsorb rest).1 + b % 8 =
            msize b + (specAbsorb rest).1 + (if pbit b then (2:Int) else 0) := by
          have hbits : (if pbit b then (2:Int) else 0) = b % 8 := by
            by_cases hp : pbit b
            · rw [if_pos hp]
              have := (pbit_iff b).mp hp
              omega
            · rw [if_neg hp]
              have : ¬ 2 ≤ b % 4 := by simpa [pbit] using hp
              omega
          rw [hbits]
          unfold msize
          omega
        rw [hval]
        have hflag : ((rest.getD 0 0 % 2 == 0 && !rest.isEmpty) ||
            hasAdjFreePair (specAbsorb rest).2) = hasAdjFreePair (b :: rest) := by
          cases rest with
          | nil => rfl
          | cons c cs =>
            by_cases hcf : c % 2 = 0
            · have hc1 : (c % 2 == 0) = true := by simpa using hcf
              have hc2 : isFree c = true := by simp [isFree, hcf]
              rw [hasAdjFreePair]
              simp [hc1, hc2, hfree]
            · have hc1 : (c % 2 == 0) = false := by simpa using hcf
              have hc2 : ¬ isFree c = true := by simp [isFree, hcf]
              rw [hasAdjFreePair, specAbsorb, if_neg hc2]
              simp only [List.getD_cons_zero, List.isEmpty_cons, Bool.not_false,
                Bool.and_true, hc1, Bool.false_or]
              rw [show isFree c = false from by simpa using hc2]
              simp
        rw [hflag]
      · have hfr2 : ¬ (b % 8 = 0 ∨ b % 8 = 2) := by omega
        have hfree : ¬ isFree b = true := by simp [isFree, hf]
        have hrec := ih rest (by simp only [List.length_cons] at hl; omega) (abit b)
          (fun x hx => hall x (by simp [hx])) hchrest
        rw [coalesceGo, if_neg hfr2, hrec, specCoalesce, if_neg hfree]
        cases rest with
        | nil => rfl
        | cons c cs =>
          rw [hasAdjFreePair]
          rw [show isFree b = false from by simpa using hfree]
          simp

end P3Heap

namespace P3Heap

theorem specCoalesce_props : ∀ (n : Nat) (l : List Int), l.length ≤ n → ∀ (pa : Bool),
    (∀ x ∈ l, x % 8 ≤ 3 ∧ 8 ≤ msize x) → chainOk pa l = true →
    (∀ x ∈ specCoalesce l, x % 8 ≤ 3 ∧ 8 ≤ msize x) ∧
    chainOk pa (specCoalesce l) = true ∧
    sumSizes (specCoalesce l) = sumSizes l ∧
    hasAdjFreePair (specCoalesce l) = false := by
  intro n
  induction n with
  | zero =>
    intro l hl pa _ _
    have hnil : l = [] := List.eq_nil_of_length_eq_zero (by omega)
    subst hnil
    exact ⟨by simp [specCoalesce], by simp [specCoalesce, chainOk],
      by simp [specCoalesce], by simp [specCoalesce, hasAdjFreePair]⟩
  | succ n ih =>
    intro l hl pa hall hch
    cases l with
    | nil =>
      exact ⟨by simp [specCoalesce], by simp [specCoalesce, chainOk],
        by simp [specCoalesce], by simp [specCoalesce, hasAdjFreePair]⟩
    | cons b rest =>
      rw [chainOk_cons, Bool.and_eq_true, beq_iff_eq] at hch
      obtain ⟨hpb, hchrest⟩ := hch
      have hb3 := hall b (by simp)
      by_cases hf : b % 2 = 0
      · have hfr2 : b % 8 = 0 ∨ b % 8 = 2 := by omega
        have hfree : isFree b = true := by simp [isFree, hf]
        have hab : abit b = false := by
          simp only [abit, decide_eq_false_iff_not]
          omega
        rw [hab] at hchrest
        obtain ⟨hp1, hp2, hp3, hp4, hp5, hp6⟩ :=
          specAbsorb_props rest (fun x hx => hall x (by simp [hx])) hchrest
        have hlen2 : (specAbsorb rest).2.length ≤ n := by
          have := specAbsorb_len_le rest
          simp only [List.length_cons] at hl
          omega
        obtain ⟨ih1, ih2, ih3, ih4⟩ := ih (specAbsorb rest).2 hlen2 false
          (fun x hx => hall x (by simp [hp3 x hx])) hp4
        have hbits : (if pbit b then (2:Int) else 0) = b % 8 := by
          by_cases hp : pbit b
          · rw [if_pos hp]
            have := (pbit_iff b).mp hp
            omega
          · rw [if_neg hp]
            have : ¬ 2 ≤ b % 4 := by simpa [pbit] using hp
            omega
        have hmb8 : msize b % 8 = 0 := by unfold msize; omega
        rw [specCoalesce, if_pos hfree, hbits]
        refine ⟨?_, ?_, ?_, ?_⟩
        · intro x hx
          rcases List.mem_cons.mp hx with hx | hx
          · subst hx
            constructor
            · omega
            · unfold msize at hb3 ⊢
              omega
          · exact ih1 x hx
        · rw [chainOk_cons, Bool.and_eq_true, beq_iff_eq]
          constructor
          · rw [← hpb]
            simp only [pbit, decide_eq_decide]
            omega
          · have habm : abit (msize b + (specAbsorb rest).1 + b % 8) = false := by
              simp only [abit, decide_eq_false_iff_not]
              omega
            rw [habm]
            exact ih2
        · rw [sumSizes_cons, sumSizes_cons, ih3]
          have : msize (msize b + (specAbsorb rest).1 + b % 8) =
              msize b + (specAbsorb rest).1 := by
            unfold msize
            omega
          omega
        · rcases hp6 with hp6 | hp6
          · rw [hp6]
            rw [show specCoalesce [] = [] from by simp [specCoalesce]]
            rfl
          · cases hsp : (specAbsorb rest).2 with
            | nil =>
              rw [show specCoalesce [] = [] from by simp [specCoalesce]]
              rfl
            | cons d ds =>
              rw [hsp] at hp6 ih4
              simp only [List.getD_cons_zero] at hp6
              rw [show specCoalesce (d :: ds) = d :: specCoalesce ds from by
                rw [specCoalesce, if_neg (by simp [hp6])]]
              rw [show specCoalesce (d :: ds) = d :: specCoalesce ds from by
                rw [specCoalesce, if_neg (by simp [hp6])]] at ih4
              rw [hasAdjFreePair]
              rw [hp6]
              simp [ih4]
      · have hfree : ¬ isFree b = true := by simp [isFree, hf]
        have hlen2 : rest.length ≤ n := by
          simp only [List.length_cons] at hl
          omega
        obtain ⟨ih1, ih2, ih3, ih4⟩ := ih rest hlen2 (abit b)
          (fun x hx => hall x (by simp [hx])) hchrest
        rw [specCoalesce, if_neg hfree]
        refine ⟨?_, ?_, ?_, ?_⟩
        · intro x hx
          rcases List.mem_cons.mp hx with hx | hx
          · subst hx
            exact hb3
          · exact ih1 x hx
        · rw [chainOk_cons, Bool.and_eq_true, beq_iff_eq]
          exact ⟨hpb, ih2⟩
        · rw [sumSizes_cons, sumSizes_cons, ih3]
        · cases hsp : specCoalesce rest with
          | nil => rfl
          | cons d ds =>
            rw [hasAdjFreePair]
            rw [show isFree b = false from by simpa using hfree]
            rw [hsp] at ih4
            simpa using ih4

theorem specCoalesce_fix : ∀ (n : Nat) (l : List Int), l.length ≤ n →
    (∀ x ∈ l, x % 8 ≤ 3) → hasAdjFreePair l = false → specCoalesce l = l := by
  intro n
  induction n with
  | zero =>
    intro l hl _ _
    have hnil : l = [] := List.eq_nil_of_length_eq_zero (by omega)
    subst hnil
    simp [specCoalesce]
  | succ n ih =>
    intro l hl hall hadj
    cases l with
    | nil => simp [specCoalesce]
    | cons b rest =>
      have hb3 := hall b (by simp)
      by_cases hf : b % 2 = 0
      · have hfree : isFree b = true := by simp [isFree, hf]
        have hbits : (if pbit b then (2:Int) else 0) = b % 8 := by
          by_cases hp : pbit b
          · rw [if_pos hp]
            have := (pbit_iff b).mp hp
            omega
          · rw [if_neg hp]
            have : ¬ 2 ≤ b % 4 := by simpa [pbit] using hp
            omega
        cases rest with
        | nil =>
          rw [specCoalesce, if_pos hfree, hbits]
          rw [show specAbsorb [] = ((0 : Int), ([] : List Int)) from rfl]
          rw [show specCoalesce [] = [] from by simp [specCoalesce]]
          have : msize b + (0:Int) + b % 8 = b := by unfold msize; omega
          rw [this]
        | cons c cs =>
          rw [hasAdjFreePair, Bool.or_eq_false_iff, Bool.and_eq_false_iff] at hadj
          obtain ⟨hbc, hrest⟩ := hadj
          have hcf : isFree c = false := by
            rcases hbc with h | h
            · rw [hfree] at h; cases h
            · exact h
          rw [specCoalesce, if_pos hfree, hbits]
          rw [show specAbsorb (c :: cs) = ((0 : Int), c :: cs) from by
            rw [specAbsorb, if_neg (by simp [hcf])]]
          have hval : msize b + (0:Int) + b % 8 = b := by unfold msize; omega
          rw [hval]
          rw [ih (c :: cs) (by simp only [List.length_cons] at hl ⊢; omega)
            (fun x hx => hall x (by simp [hx])) hrest]
      · have hfree : ¬ isFree b = true := by simp [isFree, hf]
        rw [specCoalesce, if_neg hfree]
        have hrest : hasAdjFreePair rest = false := by
          cases rest with
          | nil => rfl
          | cons c cs =>
            rw [hasAdjFreePair, Bool.or_eq_false_iff] at hadj
            exact hadj.2
        rw [ih rest (by simp only [List.length_cons] at hl ⊢; omega)
          (fun x hx => hall x (by simp [hx])) hrest]

theorem wf_coalesce (s : AllocState) (hWF : WF s) : WF (coalesce s).2 := by
  obtain ⟨hall, hch, hsum, hhs8, hhs0, has8, haspos, honce⟩ := hWF
  have hc := coalesceGo_spec s.blocks.length s.blocks le_rfl true hall hch
  obtain ⟨hp1, hp2, hp3, hp4⟩ :=
    specCoalesce_props s.blocks.length s.blocks le_rfl true hall hch
  have he : (coalesce s).2 = { s with blocks := specCoalesce s.blocks } := by
    unfold coalesce
    rw [hc]
  rw [he]
  refine ⟨hp1, hp2, ?_, hhs8, hhs0, has8, haspos, honce⟩
  show sumSizes (specCoalesce s.blocks) = s.alloc_size
  rw [hp3]
  exact hsum

theorem pad_props (a b : Int) (ha : 0 < a) (hb : 0 < b) :
    (a + (b - a % b) % b) % b = 0 ∧ b ≤ a + (b - a % b) % b := by
  have h1 : 0 ≤ a % b := Int.emod_nonneg a (by omega)
  have h2 : a % b < b := Int.emod_lt_of_pos a hb
  by_cases hz : a % b = 0
  · rw [hz]
    simp only [sub_zero, Int.emod_self, add_zero]
    refine ⟨hz, ?_⟩
    have hdvd : b ∣ a := Int.dvd_of_emod_eq_zero hz
    exact Int.le_of_dvd ha hdvd
  · have h3 : (b - a % b) % b = b - a % b := Int.emod_eq_of_lt (by omega) (by omega)
    rw [h3]
    have hdef : a % b = a - b * (a / b) := Int.emod_def a b
    have hq : 0 ≤ a / b := Int.ediv_nonneg ha.le hb.le
    have heq : a + (b - a % b) = b * (a / b + 1) := by
      rw [hdef]
      ring
    constructor
    · rw [heq]
      exact Int.mul_emod_right b (a / b + 1)
    · rw [heq]
      have : b * 1 ≤ b * (a / b + 1) := by
        apply mul_le_mul_of_nonneg_left (by omega) hb.le
      omega

theorem wf_init (sizeOfRegion pagesize p : Int) (st s : AllocState)
    (hpage : 16 ≤ pagesize) (hp8 : pagesize % 8 = 0)
    (hpos : 0 < p) (hpal : p % 8 = 0) (h0 : st.allocated_once = false)
    (h : init_heap sizeOfRegion pagesize true (some p) st = (0, s)) : WF s := by
  by_cases hsz : sizeOfRegion ≤ 0
  · rw [init_heap_validation_frame _ _ _ _ _ (Or.inr hsz)] at h
    exact absurd (congrArg Prod.fst h) (by norm_num)
  · have hgt : 0 < sizeOfRegion := by omega
    have hcomp : init_heap sizeOfRegion pagesize true (some p) st =
        (0, ⟨true, sizeOfRegion + (pagesize - sizeOfRegion % pagesize) % pagesize - 8, p + 4,
          [sizeOfRegion + (pagesize - sizeOfRegion % pagesize) % pagesize - 8 + 2]⟩) := by
      simp [init_heap, h0, hsz]
    rw [hcomp] at h
    have hs2 : (⟨true, sizeOfRegion + (pagesize - sizeOfRegion % pagesize) % pagesize - 8, p + 4,
        [sizeOfRegion + (pagesize - sizeOfRegion % pagesize) % pagesize - 8 + 2]⟩ : AllocState) = s :=
      congrArg Prod.snd h
    rw [← hs2]
    obtain ⟨hmod, hle⟩ := pad_props sizeOfRegion pagesize hgt (by omega)
    have hdvd8 : (sizeOfRegion + (pagesize - sizeOfRegion % pagesize) % pagesize) % 8 = 0 := by
      have hb8 : (8 : Int) ∣ pagesize := Int.dvd_of_emod_eq_zero hp8
      have hba : pagesize ∣ (sizeOfRegion + (pagesize - sizeOfRegion % pagesize) % pagesize) :=
        Int.dvd_of_emod_eq_zero hmod
      exact Int.emod_eq_zero_of_dvd (dvd_trans hb8 hba)
    refine ⟨?_, ?_, ?_, by dsimp only; omega, by dsimp only; omega, by dsimp only; omega,
      by dsimp only; omega, rfl⟩
    · intro x hx
      simp only [List.mem_singleton] at hx
      subst hx
      constructor
      · omega
      · unfold msize
        omega
    · rw [chainOk_cons]
      rw [show chainOk (abit (sizeOfRegion + (pagesize - sizeOfRegion % pagesize) % pagesize - 8 + 2)) [] = true from rfl]
      rw [Bool.and_true, beq_iff_eq]
      simp only [pbit, decide_eq_true_iff]
      omega
    · dsimp only
      rw [sumSizes_cons]
      rw [show sumSizes [] = 0 from rfl]
      unfold msize
      omega

theorem reachable_wf (s : AllocState) (h : Reachable s) : WF s := by
  induction h with
  | init a b p st s hpage hp8 hpos hpal h0 hinit => exact wf_init a b p st s hpage hp8 hpos hpal h0 hinit
  | step_balloc sz s _ ih => exact wf_balloc sz s ih
  | step_bfree ptr s _ ih => exact wf_bfree ptr s ih
  | step_coalesce s _ ih => exact wf_coalesce s ih
  | step_init a b c d s _ ih =>
    rw [init_heap_validation_frame a b c d s (Or.inl ih.2.2.2.2.2.2.2)]
    exact ih

end P3Heap

namespace P3Heap

theorem chainOk_idx : ∀ (l : List Int) (pa : Bool), chainOk pa l = true →
    (0 < l.length → pbit (l.getD 0 0) = pa) ∧
    (∀ i, i + 1 < l.length → pbit (l.getD (i + 1) 0) = abit (l.getD i 0)) := by
  intro l
  induction l with
  | nil =>
    intro pa _
    exact ⟨fun h => by simp at h, fun i hi => by simp at hi⟩
  | cons b rest ih =>
    intro pa h
    rw [chainOk_cons, Bool.and_eq_true, beq_iff_eq] at h
    obtain ⟨hpb, hrest⟩ := h
    obtain ⟨ih0, ih1⟩ := ih (abit b) hrest
    refine ⟨fun _ => by simpa using hpb, ?_⟩
    intro i hi
    cases i with
    | zero =>
      simp only [List.getD_cons_succ, List.getD_cons_zero]
      exact ih0 (by simpa using hi)
    | succ j =>
      simp only [List.getD_cons_succ]
      exact ih1 j (by simpa using hi)

theorem sumSizes_mod8 (l : List Int) : sumSizes l % 8 = 0 := by
  induction l with
  | nil => simp [sumSizes]
  | cons b rest ih =>
    rw [sumSizes_cons]
    unfold msize
    omega

theorem offsetOf_mod8 (l : List Int) (i : Nat) : offsetOf l i % 8 = 0 :=
  sumSizes_mod8 (l.take i)

theorem offsetOf_nonneg (l : List Int) (i : Nat) (h : ∀ b ∈ l, 8 ≤ msize b) :
    0 ≤ offsetOf l i :=
  sumSizes_nonneg (l.take i) (fun b hb => h b (List.mem_of_mem_take hb))

theorem offsetOf_succ : ∀ (l : List Int) (i : Nat), i < l.length →
    offsetOf l (i + 1) = offsetOf l i + msize (l.getD i 0) := by
  intro l
  induction l with
  | nil => intro i h; simp at h
  | cons b rest ih =>
    intro i h
    cases i with
    | zero =>
      simp only [offsetOf, List.take_succ_cons, List.take_zero, List.getD_cons_zero]
      rw [sumSizes_cons]
      simp [sumSizes]
    | succ j =>
      have := ih j (by simpa using h)
      simp only [offsetOf, List.take_succ_cons, List.getD_cons_succ] at this ⊢
      rw [sumSizes_cons, sumSizes_cons]
      omega

theorem offsetOf_succ_le_sum : ∀ (l : List Int) (i : Nat), i < l.length →
    (∀ b ∈ l, 8 ≤ msize b) → offsetOf l (i + 1) ≤ sumSizes l := by
  intro l
  induction l with
  | nil => intro i h; simp at h
  | cons b rest ih =>
    intro i h hall
    cases i with
    | zero =>
      simp only [offsetOf, List.take_succ_cons, List.take_zero]
      rw [sumSizes_cons, sumSizes_cons]
      have : sumSizes ([] : List Int) = 0 := rfl
      have hrest : 0 ≤ sumSizes rest :=
        sumSizes_nonneg rest (fun x hx => hall x (by simp [hx]))
      omega
    | succ j =>
      have := ih j (by simpa using h) (fun x hx => hall x (by simp [hx]))
      simp only [offsetOf, List.take_succ_cons] at this ⊢
      rw [sumSizes_cons, sumSizes_cons]
      omega

theorem getD_mem : ∀ (l : List Int) (i : Nat), i < l.length → l.getD i 0 ∈ l := by
  intro l
  induction l with
  | nil => intro i h; simp at h
  | cons b rest ih =>
    intro i h
    cases i with
    | zero => simp
    | succ j =>
      simp only [List.getD_cons_succ]
      exact List.mem_cons_of_mem b (ih j (by simpa using h))

theorem offsetOf_strict_mono (l : List Int) (hall : ∀ b ∈ l, 8 ≤ msize b) :
    ∀ i j, i < j → j < l.length → offsetOf l i < offsetOf l j := by
  intro i j hij hj
  induction j with
  | zero => omega
  | succ j ih =>
    rw [offsetOf_succ l j (by omega)]
    have hm := hall (l.getD j 0) (getD_mem l j (by omega))
    rcases Nat.lt_or_ge i j with h | h
    · have := ih h (by omega)
      omega
    · have hi : i = j := by omega
      subst hi
      omega

theorem offsetOf_inj (l : List Int) (hall : ∀ b ∈ l, 8 ≤ msize b)
    (i j : Nat) (hi : i < l.length) (hj : j < l.length)
    (h : offsetOf l i = offsetOf l j) : i = j := by
  rcases Nat.lt_trichotomy i j with hlt | he | hlt
  · have := offsetOf_strict_mono l hall i j hlt hj
    omega
  · exact he
  · have := offsetOf_strict_mono l hall j i hlt hi
    omega

theorem offsetOf_append (u v : List Int) (n : Nat) (h : n = u.length) :
    offsetOf (u ++ v) n = sumSizes u := by
  subst h
  rw [offsetOf, List.take_left]

theorem offsetOf_zero (l : List Int) : offsetOf l 0 = 0 := by
  simp [offsetOf, sumSizes]

theorem offsetOf_cons_succ (b : Int) (rest : List Int) (j : Nat) :
    offsetOf (b :: rest) (j + 1) = msize b + offsetOf rest j := by
  simp only [offsetOf, List.take_succ_cons]
  rw [sumSizes_cons]

theorem locate_eq_some_iff : ∀ (l : List Int), (∀ x ∈ l, 8 ≤ msize x) →
    ∀ (off : Int) (i : Nat),
    (locate l off = some i ↔ (i < l.length ∧ offsetOf l i = off)) := by
  intro l
  induction l with
  | nil =>
    intro _ off i
    constructor
    · intro h; simp [locate] at h
    · intro ⟨hi, _⟩; simp at hi
  | cons b rest ih =>
    intro hpos off i
    constructor
    · exact fun h => locate_some_spec (b :: rest) off i h
    · intro ⟨hi, hoff⟩
      cases i with
      | zero =>
        have hz : off = 0 := by
          rw [← hoff, offsetOf_zero]
        rw [locate, if_pos hz]
      | succ j =>
        have hj : j < rest.length := by simpa using hi
        rw [offsetOf_cons_succ] at hoff
        have hrest_nonneg : 0 ≤ offsetOf rest j :=
          offsetOf_nonneg rest j (fun x hx => hpos x (by simp [hx]))
        have hb8 : 8 ≤ msize b := hpos b (by simp)
        have hnz : ¬ off = 0 := by omega
        rw [locate, if_neg hnz]
        have hrec : locate rest (off - msize b) = some j :=
          (ih (fun x hx => hpos x (by simp [hx])) (off - msize b) j).mpr
            ⟨hj, by omega⟩
        rw [hrec]

end P3Heap

namespace P3Heap

theorem balloc_frame (r : Int) (s : AllocState) :
    (balloc r s).2.alloc_size = s.alloc_size ∧
    (balloc r s).2.heap_start = s.heap_start ∧
    (balloc r s).2.allocated_once = s.allocated_once := by
  by_cases hval : r ≤ 0 ∨ s.alloc_size < r
  · simp [balloc, if_pos hval]
  · obtain ⟨res, hs⟩ : ∃ res, ballocScan (block_size r) s.blocks none 0 = res := ⟨_, rfl⟩
    cases res with
    | exact i => simp [balloc, if_neg hval, hs]
    | best i bf => simp [balloc, if_neg hval, hs]
    | nofit => simp [balloc, if_neg hval, hs]

theorem bfree_frame (p : Int) (s : AllocState) :
    (bfree p s).2.alloc_size = s.alloc_size ∧
    (bfree p s).2.heap_start = s.heap_start ∧
    (bfree p s).2.allocated_once = s.allocated_once := by
  rcases bfree_cases p s with he | he
  · rw [he]
    exact ⟨rfl, rfl, rfl⟩
  · by_cases h0 : p = 0
    · rw [bfree_fail_eq p s (Or.inl h0)]
      exact ⟨rfl, rfl, rfl⟩
    · by_cases h8 : p % 8 = 0
      · by_cases hb : p < s.heap_start ∨ s.heap_start + s.alloc_size < p
        · rw [bfree_fail_eq p s (by tauto)]
          exact ⟨rfl, rfl, rfl⟩
        · cases hloc : locate s.blocks (p - 4 - s.heap_start) with
          | none =>
            rw [bfree_fail_eq p s (by tauto)]
            exact ⟨rfl, rfl, rfl⟩
          | some i =>
            by_cases hr : s.blocks.getD i 0 % 8 = 0 ∨ s.blocks.getD i 0 % 8 = 2
            · rw [bfree_fail_eq p s (Or.inr (Or.inr (Or.inr (Or.inr (Or.inr ⟨i, hloc, hr⟩)))))]
              exact ⟨rfl, rfl, rfl⟩
            · rw [bfree_succ_eq p s i h0 h8 hb hloc hr]
              exact ⟨rfl, rfl, rfl⟩
      · rw [bfree_fail_eq p s (Or.inr (Or.inl h8))]
        exact ⟨rfl, rfl, rfl⟩

theorem coalesce_frame (s : AllocState) :
    (coalesce s).2.alloc_size = s.alloc_size ∧
    (coalesce s).2.heap_start = s.heap_start ∧
    (coalesce s).2.allocated_once = s.allocated_once := by
  unfold coalesce
  exact ⟨rfl, rfl, rfl⟩

theorem exactUpdate_length (l : List Int) (i : Nat) :
    (exactUpdate l i).length = l.length := by
  unfold exactUpdate
  by_cases h : i + 1 < l.length
  · rw [if_pos h]
    simp
  · rw [if_neg h]
    simp

theorem splitUpdate_length (l : List Int) (i : Nat) (bs : Int) (h : i < l.length) :
    (splitUpdate l i bs).length = l.length + 1 := by
  unfold splitUpdate
  have h2 : (l.take i).length = i := by rw [List.length_take]; omega
  simp only [List.length_append, h2, List.length_cons, List.length_drop, List.length_nil]
  omega

theorem freeUpdate_length (l : List Int) (i : Nat) :
    (freeUpdate l i).length = l.length := by
  unfold freeUpdate
  by_cases h : i + 1 < l.length
  · rw [if_pos h]
    simp
  · rw [if_neg h]
    simp

theorem msize_le_sum (l : List Int) (hall : ∀ b ∈ l, 8 ≤ msize b)
    (i : Nat) (hi : i < l.length) : msize (l.getD i 0) ≤ sumSizes l := by
  have h1 := offsetOf_succ l i hi
  have h2 := offsetOf_succ_le_sum l i hi hall
  have h3 := offsetOf_nonneg l i hall
  omega

end P3Heap

namespace P3Heap

/-- Claim C1: placement policy of `balloc`.  For a request `r` with
`0 < r ≤ capacity` and required block size `block_size r`, (a) if the
left-to-right scan meets a free block whose masked size equals the required
size exactly, `balloc` allocates the first such block and returns its
payload, with no split; (b) otherwise, if some free block is large enough,
`balloc` splits the smallest sufficient free block (ties to the lowest
address): the leading required bytes become the allocated block and the
remainder becomes a free block with the p-bit set and size equal to the old
size minus the required size. -/
theorem claim_C1 (s : AllocState) (_hR : Reachable s) (r : Int)
    (h1 : 0 < r) (h2 : r ≤ s.alloc_size) :
    (∀ i, i < s.blocks.length →
      isExact (block_size r) (s.blocks.getD i 0) →
      (∀ j, j < i → ¬ isExact (block_size r) (s.blocks.getD j 0)) →
      balloc r s = (some (s.heap_start + offsetOf s.blocks i + 4),
        { s with blocks := exactUpdate s.blocks i })) ∧
    ((∀ j, j < s.blocks.length → ¬ isExact (block_size r) (s.blocks.getD j 0)) →
      ∀ i, i < s.blocks.length →
      isCand (block_size r) (s.blocks.getD i 0) →
      (∀ j, j < s.blocks.length → isCand (block_size r) (s.blocks.getD j 0) →
        msize (s.blocks.getD i 0) ≤ msize (s.blocks.getD j 0)) →
      (∀ j, j < i → isCand (block_size r) (s.blocks.getD j 0) →
        msize (s.blocks.getD i 0) < msize (s.blocks.getD j 0)) →
      balloc r s = (some (s.heap_start + offsetOf s.blocks i + 4),
        { s with blocks := splitUpdate s.blocks i (block_size r) })) :=
  ⟨fun i hi hex hfirst => balloc_exact_eq s r h1 h2 i hi hex hfirst,
   fun hnoex i hi hcand hmin hstrict =>
     balloc_split_eq s r h1 h2 hnoex i hi hcand hmin hstrict⟩

theorem claim_C1_witness :
    balloc 4084 sInit = (some 4104, ⟨true, 4088, 4100, [4091]⟩) := by
  have h := (claim_C1 sInit sInit_reachable 4084 (by decide) (by decide)).1 0 (by decide)
    (by decide) (fun j hj => absurd hj (Nat.not_lt_zero j))
  rw [h]
  rfl

/-- Claim C2: predecessor-bit invariant.  In every reachable state (after
`init_heap` and any sequence of completed operations), the first block's
p-bit is set, and every later block's p-bit equals the a-bit of its
immediate left neighbour. -/
theorem claim_C2 (s : AllocState) (hR : Reachable s) :
    (0 < s.blocks.length → pbit (s.blocks.getD 0 0) = true) ∧
    (∀ i, i + 1 < s.blocks.length →
      pbit (s.blocks.getD (i + 1) 0) = abit (s.blocks.getD i 0)) :=
  chainOk_idx s.blocks true (reachable_wf s hR).2.1

theorem claim_C2_witness : pbit (sInit.blocks.getD 0 0) = true :=
  (claim_C2 sInit sInit_reachable).1 (by decide)

/-- Claim C3: size conservation.  In every reachable state the masked block
sizes sum to the managed capacity `alloc_size` (so the walk from the region
start by block sizes ends exactly at the sentinel), and every `balloc`,
`bfree` and `coalesce` call conserves that sum (in particular a split and a
merge conserve it). -/
theorem claim_C3 (s : AllocState) (hR : Reachable s) :
    sumSizes s.blocks = s.alloc_size ∧
    (∀ r, sumSizes ((balloc r s).2.blocks) = sumSizes s.blocks) ∧
    (∀ p, sumSizes ((bfree p s).2.blocks) = sumSizes s.blocks) ∧
    sumSizes ((coalesce s).2.blocks) = sumSizes s.blocks := by
  have hWF := reachable_wf s hR
  have h1 := hWF.2.2.1
  refine ⟨h1, ?_, ?_, ?_⟩
  · intro r
    have hs2 := (wf_balloc r s hWF).2.2.1
    rw [hs2, (balloc_frame r s).1, h1]
  · intro p
    have hs2 := (wf_bfree p s hWF).2.2.1
    rw [hs2, (bfree_frame p s).1, h1]
  · have hs2 := (wf_coalesce s hWF).2.2.1
    rw [hs2, (coalesce_frame s).1, h1]

theorem claim_C3_witness : sumSizes sInit.blocks = sInit.alloc_size :=
  (claim_C3 sInit sInit_reachable).1

/-- Claim C4 fails as stated: an `init_heap` call whose backing-store
acquisition fails returns `-1` having already overwritten the recorded
capacity `alloc_size` (the assignment `alloc_size = sizeOfRegion + padsize`
precedes the `open`/`mmap` failure checks). -/
theorem claim_C4_counterexample :
    (init_heap 100 4096 false none s0).1 = -1 ∧
    (init_heap 100 4096 false none s0).2 ≠ s0 ∧
    (init_heap 100 4096 false none s0).2.alloc_size = 4096 ∧ s0.alloc_size = 0 := by
  refine ⟨rfl, ?_, rfl, rfl⟩
  decide

/-- Claim C4 (amended): a `balloc` call that returns `NULL` and a `bfree`
call that returns `-1` mutate nothing; an `init_heap` call that fails
validation (second initialization or non-positive size) mutates nothing;
an `init_heap` call that fails acquiring the backing store leaves the block
headers, the sentinel, `heap_start` and the initialization flag unchanged,
but has already overwritten the recorded capacity `alloc_size`. -/
theorem claim_C4_amended (s : AllocState) :
    (∀ r, (balloc r s).1 = none → (balloc r s).2 = s) ∧
    (∀ p, (bfree p s).1 = -1 → (bfree p s).2 = s) ∧
    (∀ a b : Int, ∀ c : Bool, ∀ d : Option Int,
      s.allocated_once = true ∨ a ≤ 0 → init_heap a b c d s = (-1, s)) ∧
    (∀ a b : Int, ∀ c : Bool, ∀ d : Option Int, (init_heap a b c d s).1 = -1 →
      (init_heap a b c d s).2.blocks = s.blocks ∧
      (init_heap a b c d s).2.heap_start = s.heap_start ∧
      (init_heap a b c d s).2.allocated_once = s.allocated_once) :=
  ⟨fun r => balloc_fail_frame r s, fun p => bfree_fail_frame p s,
   fun a b c d h => init_heap_validation_frame a b c d s h,
   fun a b c d h => init_heap_fail_frame a b c d s h⟩

theorem claim_C4_witness :
    (balloc 0 s0).2 = s0 ∧ (bfree 12 sInit).2 = sInit ∧
    init_heap 5 4096 true (some 4096) sInit = (-1, sInit) ∧
    (init_heap 100 4096 false none s0).2.blocks = s0.blocks :=
  ⟨(claim_C4_amended s0).1 0 rfl, (claim_C4_amended sInit).2.1 12 rfl,
   (claim_C4_amended sInit).2.2.1 5 4096 true (some 4096) (Or.inl rfl),
   ((claim_C4_amended s0).2.2.2 100 4096 false none rfl).1⟩

/-- Claim C6: a single `coalesce` call replaces every maximal run of
adjacent free blocks by one free block whose size is the sum of the run's
sizes and whose p-bit equals the run's first block's p-bit, leaves
allocated blocks (and the sentinel) unmodified, and returns true exactly
when at least one merge occurred (two adjacent free blocks existed). -/
theorem claim_C6 (s : AllocState) (hR : Reachable s) :
    (coalesce s).2 = { s with blocks := specCoalesce s.blocks } ∧
    ((coalesce s).1 = true ↔ hasAdjFreePair s.blocks = true) := by
  obtain ⟨hall, hch, -, -, -, -, -, -⟩ := reachable_wf s hR
  have hc := coalesceGo_spec s.blocks.length s.blocks le_rfl true hall hch
  unfold coalesce
  rw [hc]
  exact ⟨rfl, Iff.rfl⟩

/-- Claim C7: `coalesce` is idempotent: immediately after one `coalesce`
call, a second call merges nothing, changes nothing, and returns false. -/
theorem claim_C7 (s : AllocState) (hR : Reachable s) :
    coalesce ((coalesce s).2) = (false, (coalesce s).2) := by
  have hWF := reachable_wf s hR
  have hall := hWF.1
  have hch := hWF.2.1
  have hc := coalesceGo_spec s.blocks.length s.blocks le_rfl true hall hch
  have hWF1 := wf_coalesce s hWF
  have hall1 := hWF1.1
  have hch1 := hWF1.2.1
  obtain ⟨hq1, -, -, hp4⟩ := specCoalesce_props s.blocks.length s.blocks le_rfl true hall hch
  have hb1 : (coalesce s).2.blocks = specCoalesce s.blocks := by
    unfold coalesce
    rw [hc]
  have hc2 := coalesceGo_spec (coalesce s).2.blocks.length (coalesce s).2.blocks le_rfl
    true hall1 hch1
  have hfix : specCoalesce ((coalesce s).2.blocks) = (coalesce s).2.blocks := by
    rw [hb1]
    exact specCoalesce_fix (specCoalesce s.blocks).length (specCoalesce s.blocks) le_rfl
      (fun x hx => (hq1 x hx).1) hp4
  have hadj : hasAdjFreePair ((coalesce s).2.blocks) = false := by
    rw [hb1]
    exact hp4
  show ((coalesceGo (coalesce s).2.blocks).2,
    { (coalesce s).2 with blocks := (coalesceGo (coalesce s).2.blocks).1 }) = _
  rw [hc2, hfix, hadj]

theorem claim_C7_witness : coalesce ((coalesce sInit).2) = (false, (coalesce sInit).2) :=
  claim_C7 sInit sInit_reachable

/-- Claim C8: alignment.  Every payload address returned by a successful
`balloc` call in a reachable state is 8-byte aligned. -/
theorem claim_C8 (s : AllocState) (hR : Reachable s) (r p : Int)
    (h : (balloc r s).1 = some p) : p % 8 = 0 := by
  obtain ⟨hall, hch, hsum, hhs8, hhs0, has8, haspos, honce⟩ := reachable_wf s hR
  by_cases hval : r ≤ 0 ∨ s.alloc_size < r
  · simp [balloc, if_pos hval] at h
  · obtain ⟨res, hs⟩ : ∃ res, ballocScan (block_size r) s.blocks none 0 = res := ⟨_, rfl⟩
    cases res with
    | exact i =>
      have he : (balloc r s).1 = some (s.heap_start + offsetOf s.blocks i + 4) := by
        simp only [balloc, if_neg hval, hs]
      rw [he] at h
      obtain rfl : s.heap_start + offsetOf s.blocks i + 4 = p := by simpa using h
      have := offsetOf_mod8 s.blocks i
      omega
    | best i bf =>
      have he : (balloc r s).1 = some (s.heap_start + offsetOf s.blocks i + 4) := by
        simp only [balloc, if_neg hval, hs]
      rw [he] at h
      obtain rfl : s.heap_start + offsetOf s.blocks i + 4 = p := by simpa using h
      have := offsetOf_mod8 s.blocks i
      omega
    | nofit => simp [balloc, if_neg hval, hs] at h

theorem claim_C8_witness : (4104 : Int) % 8 = 0 :=
  claim_C8 sInit sInit_reachable 4084 4104 (by decide)

/-- Claim C10: for every reachable state and every request `sz` with
`alloc_size - 4 < sz ≤ alloc_size`, `balloc sz` passes argument validation
but returns `NULL` and changes nothing, because the required block size
exceeds `alloc_size`, which bounds every block's size. -/
theorem claim_C10 (s : AllocState) (hR : Reachable s) (sz : Int)
    (h1 : s.alloc_size - 4 < sz) (h2 : sz ≤ s.alloc_size) :
    balloc sz s = (none, s) := by
  obtain ⟨hall, hch, hsum, hhs8, hhs0, has8, haspos, honce⟩ := reachable_wf s hR
  have h0 : 0 < sz := by omega
  apply balloc_nofit_eq s sz h0 h2
  intro j hj hc
  obtain ⟨-, hc2⟩ := hc
  have hle := msize_le_sum s.blocks (fun b hb => (hall b hb).2) j hj
  have hbs := block_size_ge_payload sz
  omega

theorem claim_C10_witness : balloc 4085 sInit = (none, sInit) :=
  claim_C10 sInit sInit_reachable 4085 (by decide) (by decide)

end P3Heap

namespace P3Heap

theorem reachable_three_free : Reachable ⟨true, 4088, 4100, [18, 16, 16, 4040]⟩ := by
  have r0 := sInit_reachable
  have r1 := Reachable.step_balloc 12 sInit r0
  rw [show (balloc 12 sInit).2 = ⟨true, 4088, 4100, [19, 4074]⟩ from by decide] at r1
  have r2 := Reachable.step_balloc 12 _ r1
  rw [show (balloc 12 (⟨true, 4088, 4100, [19, 4074]⟩ : AllocState)).2 =
    ⟨true, 4088, 4100, [19, 19, 4058]⟩ from by decide] at r2
  have r3 := Reachable.step_balloc 12 _ r2
  rw [show (balloc 12 (⟨true, 4088, 4100, [19, 19, 4058]⟩ : AllocState)).2 =
    ⟨true, 4088, 4100, [19, 19, 19, 4042]⟩ from by decide] at r3
  have r4 := Reachable.step_bfree 4104 _ r3
  rw [show (bfree 4104 (⟨true, 4088, 4100, [19, 19, 19, 4042]⟩ : AllocState)).2 =
    ⟨true, 4088, 4100, [18, 17, 19, 4042]⟩ from by decide] at r4
  have r5 := Reachable.step_bfree 4120 _ r4
  rw [show (bfree 4120 (⟨true, 4088, 4100, [18, 17, 19, 4042]⟩ : AllocState)).2 =
    ⟨true, 4088, 4100, [18, 16, 17, 4042]⟩ from by decide] at r5
  have r6 := Reachable.step_bfree 4136 _ r5
  rw [show (bfree 4136 (⟨true, 4088, 4100, [18, 16, 17, 4042]⟩ : AllocState)).2 =
    ⟨true, 4088, 4100, [18, 16, 16, 4040]⟩ from by decide] at r6
  exact r6

theorem claim_C6_witness :
    coalesce ⟨true, 4088, 4100, [18, 16, 16, 4040]⟩ =
      (true, ⟨true, 4088, 4100, [4090]⟩) := by
  have h := claim_C6 ⟨true, 4088, 4100, [18, 16, 16, 4040]⟩ reachable_three_free
  have hfst := h.2.mpr (by decide)
  have hsnd : (coalesce (⟨true, 4088, 4100, [18, 16, 16, 4040]⟩ : AllocState)).2 =
      ⟨true, 4088, 4100, [4090]⟩ := by
    rw [h.1]
    have : specCoalesce [18, 16, 16, 4040] = [4090] := by
      norm_num [specCoalesce, specAbsorb, msize, pbit, isFree]
    rw [this]
  calc coalesce ⟨true, 4088, 4100, [18, 16, 16, 4040]⟩
      = ((coalesce (⟨true, 4088, 4100, [18, 16, 16, 4040]⟩ : AllocState)).1,
         (coalesce (⟨true, 4088, 4100, [18, 16, 16, 4040]⟩ : AllocState)).2) := rfl
    _ = (true, ⟨true, 4088, 4100, [4090]⟩) := by rw [hfst, hsnd]

end P3Heap

namespace P3Heap

theorem freeUpdate_at (l : List Int) (i : Nat) (hk : i < l.length) :
    (freeUpdate l i).getD i 0 = l.getD i 0 - 1 ∧
    offsetOf (freeUpdate l i) i = offsetOf l i := by
  have hlen_take : (l.take i).length = i := by rw [List.length_take]; omega
  have hdec := eq_take_cons_drop l i hk
  by_cases hsucc : i + 1 < l.length
  · obtain ⟨c, w, hv⟩ : ∃ c w, l.drop (i + 1) = c :: w := by
      cases hvv : l.drop (i + 1) with
      | nil =>
        exfalso
        have := congrArg List.length hvv
        rw [List.length_drop] at this
        simp at this
        omega
      | cons c w => exact ⟨c, w, rfl⟩
    have hdec2 : l = l.take i ++ l.getD i 0 :: c :: w := by
      conv_lhs => rw [hdec]
      rw [hv]
    have hupd : freeUpdate l i = l.take i ++ (l.getD i 0 - 1) :: (c - 2) :: w := by
      conv_lhs => rw [hdec2]
      rw [freeUpdate_decomp _ _ _ _ _ (by omega)]
    constructor
    · rw [hupd, getD_append_idx _ _ _ 0 (by omega)]
      simp
    · rw [hupd, offsetOf_append _ _ _ (by omega)]
      conv_rhs => rw [hdec2]
      rw [offsetOf_append _ _ _ (by omega)]
  · have hv : l.drop (i + 1) = [] := by
      apply List.drop_eq_nil_of_le
      omega
    have hdec2 : l = l.take i ++ [l.getD i 0] := by
      conv_lhs => rw [hdec]
      rw [hv]
    have hupd : freeUpdate l i = l.take i ++ [l.getD i 0 - 1] := by
      conv_lhs => rw [hdec2]
      rw [freeUpdate_last _ _ _ (by omega)]
    constructor
    · rw [hupd, getD_append_idx _ _ _ 0 (by omega)]
      simp
    · rw [hupd, offsetOf_append _ _ _ (by omega)]
      conv_rhs => rw [hdec2]
      rw [offsetOf_append _ _ _ (by omega)]

/-- Claim C5: `bfree(ptr)` fails (returns -1) exactly when `ptr` is null,
misaligned, out of the region's bounds, or the header 4 bytes before `ptr`
is not an allocated block header; a failing call mutates nothing; a
successful call clears the block's a-bit and clears the next block's p-bit
when the next block is not the sentinel (`freeUpdate`); and of two
consecutive `bfree` calls on the same address the first succeeds and the
second fails, leaving the state (in particular the next block's p-bit)
unchanged. -/
theorem claim_C5 (s : AllocState) (hR : Reachable s) (p : Int) :
    ((bfree p s).1 = -1 ↔
      (p = 0 ∨ ¬ p % 8 = 0 ∨ p < s.heap_start ∨ s.heap_start + s.alloc_size < p ∨
        ¬ ∃ i, i < s.blocks.length ∧ offsetOf s.blocks i = p - 4 - s.heap_start ∧
          abit (s.blocks.getD i 0) = true)) ∧
    ((bfree p s).1 = -1 → (bfree p s).2 = s) ∧
    (∀ i, i < s.blocks.length → offsetOf s.blocks i = p - 4 - s.heap_start →
      (bfree p s).1 = 0 →
      bfree p s = (0, { s with blocks := freeUpdate s.blocks i })) ∧
    ((bfree p s).1 = 0 → bfree p ((bfree p s).2) = (-1, (bfree p s).2)) := by
  have hWF := reachable_wf s hR
  have hall := hWF.1
  have hpos : ∀ x ∈ s.blocks, 8 ≤ msize x := fun x hx => (hall x hx).2
  have main : ∀ i, i < s.blocks.length → offsetOf s.blocks i = p - 4 - s.heap_start →
      (bfree p s).1 = 0 →
      bfree p s = (0, { s with blocks := freeUpdate s.blocks i }) := by
    intro i hi hoff hzero
    by_cases h0 : p = 0
    · rw [bfree_fail_eq p s (Or.inl h0)] at hzero
      exact absurd hzero (by norm_num)
    by_cases h8 : p % 8 = 0
    case neg =>
      rw [bfree_fail_eq p s (Or.inr (Or.inl h8))] at hzero
      exact absurd hzero (by norm_num)
    by_cases hb : p < s.heap_start ∨ s.heap_start + s.alloc_size < p
    · rw [bfree_fail_eq p s (by tauto)] at hzero
      exact absurd hzero (by norm_num)
    cases hloc : locate s.blocks (p - 4 - s.heap_start) with
    | none =>
      rw [bfree_fail_eq p s (by tauto)] at hzero
      exact absurd hzero (by norm_num)
    | some i2 =>
      by_cases hr : s.blocks.getD i2 0 % 8 = 0 ∨ s.blocks.getD i2 0 % 8 = 2
      · rw [bfree_fail_eq p s (Or.inr (Or.inr (Or.inr (Or.inr (Or.inr ⟨i2, hloc, hr⟩)))))] at hzero
        exact absurd hzero (by norm_num)
      · have heq := bfree_succ_eq p s i2 h0 h8 hb hloc hr
        obtain ⟨hi2, hoff2⟩ := locate_some_spec _ _ _ hloc
        obtain rfl : i2 = i := offsetOf_inj s.blocks hpos i2 i hi2 hi (by rw [hoff2, hoff])
        exact heq
  refine ⟨?_, fun h => bfree_fail_frame p s h, main, ?_⟩
  · constructor
    · intro hfail
      by_cases h0 : p = 0
      · exact Or.inl h0
      by_cases h8 : p % 8 = 0
      case neg => exact Or.inr (Or.inl h8)
      by_cases hlo : p < s.heap_start
      · exact Or.inr (Or.inr (Or.inl hlo))
      by_cases hhi : s.heap_start + s.alloc_size < p
      · exact Or.inr (Or.inr (Or.inr (Or.inl hhi)))
      refine Or.inr (Or.inr (Or.inr (Or.inr ?_)))
      intro ⟨i, hi, hoff, hab⟩
      have hloc : locate s.blocks (p - 4 - s.heap_start) = some i :=
        (locate_eq_some_iff s.blocks hpos _ i).mpr ⟨hi, hoff⟩
      have hbl := hall _ (getD_mem s.blocks i hi)
      have habr : ¬ (s.blocks.getD i 0 % 8 = 0 ∨ s.blocks.getD i 0 % 8 = 2) := by
        have : s.blocks.getD i 0 % 2 = 1 := by simpa [abit] using hab
        omega
      have heq := bfree_succ_eq p s i h0 h8 (by tauto) hloc habr
      rw [heq] at hfail
      exact absurd hfail (by norm_num)
    · intro hdisj
      rcases hdisj with h | h | h | h
      · rw [bfree_fail_eq p s (Or.inl h)]
      · rw [bfree_fail_eq p s (Or.inr (Or.inl h))]
      · rw [bfree_fail_eq p s (Or.inr (Or.inr (Or.inl h)))]
      · rcases h with h | h
        · rw [bfree_fail_eq p s (Or.inr (Or.inr (Or.inr (Or.inl h))))]
        · cases hloc : locate s.blocks (p - 4 - s.heap_start) with
          | none => rw [bfree_fail_eq p s (by tauto)]
          | some i =>
            obtain ⟨hi, hoff⟩ := locate_some_spec _ _ _ hloc
            by_cases hr : s.blocks.getD i 0 % 8 = 0 ∨ s.blocks.getD i 0 % 8 = 2
            · rw [bfree_fail_eq p s
                (Or.inr (Or.inr (Or.inr (Or.inr (Or.inr ⟨i, hloc, hr⟩)))))]
            · exfalso
              apply h
              refine ⟨i, hi, hoff, ?_⟩
              have hbl := hall _ (getD_mem s.blocks i hi)
              simp only [abit, decide_eq_true_iff]
              omega
  · intro hzero
    by_cases h0 : p = 0
    · rw [bfree_fail_eq p s (Or.inl h0)] at hzero
      exact absurd hzero (by norm_num)
    by_cases h8 : p % 8 = 0
    case neg =>
      rw [bfree_fail_eq p s (Or.inr (Or.inl h8))] at hzero
      exact absurd hzero (by norm_num)
    by_cases hb : p < s.heap_start ∨ s.heap_start + s.alloc_size < p
    · rw [bfree_fail_eq p s (by tauto)] at hzero
      exact absurd hzero (by norm_num)
    cases hloc : locate s.blocks (p - 4 - s.heap_start) with
    | none =>
      rw [bfree_fail_eq p s (by tauto)] at hzero
      exact absurd hzero (by norm_num)
    | some i =>
      by_cases hr : s.blocks.getD i 0 % 8 = 0 ∨ s.blocks.getD i 0 % 8 = 2
      · rw [bfree_fail_eq p s (Or.inr (Or.inr (Or.inr (Or.inr (Or.inr ⟨i, hloc, hr⟩)))))] at hzero
        exact absurd hzero (by norm_num)
      · have heq := bfree_succ_eq p s i h0 h8 hb hloc hr
        obtain ⟨hi, hoff⟩ := locate_some_spec _ _ _ hloc
        have hWF2 := wf_bfree p s hWF
        rw [heq] at hWF2
        have hpos2 : ∀ x ∈ freeUpdate s.blocks i, 8 ≤ msize x :=
          fun x hx => (hWF2.1 x hx).2
        rw [heq]
        show bfree p { s with blocks := freeUpdate s.blocks i } =
          (-1, { s with blocks := freeUpdate s.blocks i })
        apply bfree_fail_eq
        refine Or.inr (Or.inr (Or.inr (Or.inr (Or.inr ⟨i, ?_, ?_⟩))))
        · show locate (freeUpdate s.blocks i) (p - 4 - s.heap_start) = some i
          apply (locate_eq_some_iff (freeUpdate s.blocks i) hpos2 _ i).mpr
          refine ⟨by rw [freeUpdate_length]; exact hi, ?_⟩
          rw [(freeUpdate_at s.blocks i hi).2]
          exact hoff
        · show (freeUpdate s.blocks i).getD i 0 % 8 = 0 ∨
            (freeUpdate s.blocks i).getD i 0 % 8 = 2
          rw [(freeUpdate_at s.blocks i hi).1]
          have hbl := hall _ (getD_mem s.blocks i hi)
          omega

theorem reachable_one_alloc : Reachable ⟨true, 4088, 4100, [19, 4074]⟩ := by
  have r1 := Reachable.step_balloc 12 sInit sInit_reachable
  rw [show (balloc 12 sInit).2 = ⟨true, 4088, 4100, [19, 4074]⟩ from by decide] at r1
  exact r1

theorem claim_C5_witness :
    bfree 4104 ⟨true, 4088, 4100, [19, 4074]⟩ =
      (0, ⟨true, 4088, 4100, [18, 4072]⟩) := by
  have h := (claim_C5 ⟨true, 4088, 4100, [19, 4074]⟩ reachable_one_alloc 4104).2.2.1 0
    (by decide) (by decide) (by decide)
  rw [h]
  decide

end P3Heap

namespace P3Heap

theorem exactUpdate_decomp (u : List Int) (b c : Int) (w : List Int) (n : Nat)
    (hn : n = u.length) :
    exactUpdate (u ++ b :: c :: w) n = u ++ (b + 1) :: (c + 2) :: w := by
  subst hn
  unfold exactUpdate
  have hlen : u.length + 1 < (u ++ b :: c :: w).length := by simp
  rw [if_pos hlen]
  rw [getD_append_idx u (b :: c :: w) u.length 0 rfl]
  simp only [List.getD_cons_zero]
  rw [set_append_idx u b (b + 1) (c :: w) u.length rfl]
  rw [getD_append_idx u ((b + 1) :: c :: w) (u.length + 1) 1 rfl]
  simp only [List.getD_cons_succ, List.getD_cons_zero]
  rw [set_append_succ_idx u (b + 1) (c + 2) (c :: w) (u.length + 1) rfl]
  simp

theorem exactUpdate_last (u : List Int) (b : Int) (n : Nat) (hn : n = u.length) :
    exactUpdate (u ++ [b]) n = u ++ [b + 1] := by
  subst hn
  unfold exactUpdate
  have hlen : ¬ (u.length + 1 < (u ++ [b]).length) := by simp
  rw [if_neg hlen]
  rw [getD_append_idx u [b] u.length 0 rfl]
  simp only [List.getD_cons_zero]
  rw [set_append_idx u b (b + 1) [] u.length rfl]

theorem exactUpdate_at (l : List Int) (i : Nat) (hk : i < l.length) :
    (exactUpdate l i).getD i 0 = l.getD i 0 + 1 ∧
    offsetOf (exactUpdate l i) i = offsetOf l i := by
  have hlen_take : (l.take i).length = i := by rw [List.length_take]; omega
  have hdec := eq_take_cons_drop l i hk
  by_cases hsucc : i + 1 < l.length
  · obtain ⟨c, w, hv⟩ : ∃ c w, l.drop (i + 1) = c :: w := by
      cases hvv : l.drop (i + 1) with
      | nil =>
        exfalso
        have := congrArg List.length hvv
        rw [List.length_drop] at this
        simp at this
        omega
      | cons c w => exact ⟨c, w, rfl⟩
    have hdec2 : l = l.take i ++ l.getD i 0 :: c :: w := by
      conv_lhs => rw [hdec]
      rw [hv]
    have hupd : exactUpdate l i = l.take i ++ (l.getD i 0 + 1) :: (c + 2) :: w := by
      conv_lhs => rw [hdec2]
      rw [exactUpdate_decomp _ _ _ _ _ (by omega)]
    constructor
    · rw [hupd, getD_append_idx _ _ _ 0 (by omega)]
      simp
    · rw [hupd, offsetOf_append _ _ _ (by omega)]
      conv_rhs => rw [hdec2]
      rw [offsetOf_append _ _ _ (by omega)]
  · have hv : l.drop (i + 1) = [] := by
      apply List.drop_eq_nil_of_le
      omega
    have hdec2 : l = l.take i ++ [l.getD i 0] := by
      conv_lhs => rw [hdec]
      rw [hv]
    have hupd : exactUpdate l i = l.take i ++ [l.getD i 0 + 1] := by
      conv_lhs => rw [hdec2]
      rw [exactUpdate_last _ _ _ (by omega)]
    constructor
    · rw [hupd, getD_append_idx _ _ _ 0 (by omega)]
      simp
    · rw [hupd, offsetOf_append _ _ _ (by omega)]
      conv_rhs => rw [hdec2]
      rw [offsetOf_append _ _ _ (by omega)]

theorem splitUpdate_at (l : List Int) (i : Nat) (hk : i < l.length) (bs : Int) :
    (splitUpdate l i bs).getD i 0 = bs + l.getD i 0 % 8 + 1 ∧
    offsetOf (splitUpdate l i bs) i = offsetOf l i := by
  have hlen_take : (l.take i).length = i := by rw [List.length_take]; omega
  have hform : splitUpdate l i bs = l.take i ++
      (bs + l.getD i 0 % 8 + 1) :: (msize (l.getD i 0) - bs + 2) :: l.drop (i + 1) := by
    unfold splitUpdate
    simp
  constructor
  · rw [hform, getD_append_idx (l.take i) _ i 0 (by omega)]
    simp
  · rw [hform, offsetOf_append (l.take i) _ i (by omega)]
    conv_rhs => rw [eq_take_cons_drop l i hk]
    rw [offsetOf_append _ _ _ (by omega)]

theorem balloc_succ_inv (s : AllocState) (hWF : WF s) (x p : Int) (s1 : AllocState)
    (hb : balloc x s = (some p, s1)) :
    0 < x ∧ x ≤ s.alloc_size ∧
    ∃ i, i < s1.blocks.length ∧
      p = s.heap_start + offsetOf s1.blocks i + 4 ∧
      msize (s1.blocks.getD i 0) = block_size x ∧
      s1.blocks.getD i 0 % 2 = 1 := by
  have hall := hWF.1
  by_cases hval : x ≤ 0 ∨ s.alloc_size < x
  · rw [show balloc x s = (none, s) from by simp only [balloc, if_pos hval]] at hb
    exact absurd (congrArg Prod.fst hb) (by simp)
  · refine ⟨by omega, by omega, ?_⟩
    obtain ⟨res, hs⟩ : ∃ res, ballocScan (block_size x) s.blocks none 0 = res := ⟨_, rfl⟩
    cases res with
    | exact i0 =>
      obtain ⟨k, hk, hik, hx, -⟩ := scan_exact_charac _ _ _ _ _ hs
      obtain rfl : i0 = k := by omega
      have he : balloc x s = (some (s.heap_start + offsetOf s.blocks i0 + 4),
          { s with blocks := exactUpdate s.blocks i0 }) := by
        simp only [balloc, if_neg hval, hs, exactUpdate]
      rw [he] at hb
      have hp : s.heap_start + offsetOf s.blocks i0 + 4 = p := by
        have := congrArg Prod.fst hb
        simpa using this
      have hs1 : ({ s with blocks := exactUpdate s.blocks i0 } : AllocState) = s1 :=
        congrArg Prod.snd hb
      subst hs1
      obtain ⟨hgd, hof⟩ := exactUpdate_at s.blocks i0 hk
      refine ⟨i0, ?_, ?_, ?_, ?_⟩
      · show i0 < (exactUpdate s.blocks i0).length
        rw [exactUpdate_length]
        exact hk
      · show p = s.heap_start + offsetOf (exactUpdate s.blocks i0) i0 + 4
        rw [hof, hp]
      · show msize ((exactUpdate s.blocks i0).getD i0 0) = block_size x
        rw [hgd]
        obtain ⟨hfr, hms⟩ := hx
        unfold msize at *
        omega
      · show (exactUpdate s.blocks i0).getD i0 0 % 2 = 1
        rw [hgd]
        obtain ⟨hfr, -⟩ := hx
        omega
    | best i0 bf =>
      obtain ⟨hnoex, hrec⟩ := scan_best_charac _ _ _ _ _ _ hs
      rcases hrec with ⟨hbe, -⟩ | ⟨k, hk, hik, hck, hmk, -, -, -⟩
      · exact absurd hbe (by simp)
      · obtain rfl : i0 = k := by omega
        have hbf : bf = msize (s.blocks.getD i0 0) := hmk.symm
        subst hbf
        have he : balloc x s = (some (s.heap_start + offsetOf s.blocks i0 + 4),
            { s with blocks := splitUpdate s.blocks i0 (block_size x) }) := by
          simp only [balloc, if_neg hval, hs, splitUpdate, List.cons_append,
            List.nil_append, List.append_assoc]
        rw [he] at hb
        have hp : s.heap_start + offsetOf s.blocks i0 + 4 = p := by
          have := congrArg Prod.fst hb
          simpa using this
        have hs1 : ({ s with blocks := splitUpdate s.blocks i0 (block_size x) } : AllocState) = s1 :=
          congrArg Prod.snd hb
        subst hs1
        obtain ⟨hgd, hof⟩ := splitUpdate_at s.blocks i0 hk (block_size x)
        have hbs8 := block_size_mod x
        obtain ⟨hfr, -⟩ := hck
        refine ⟨i0, ?_, ?_, ?_, ?_⟩
        · show i0 < (splitUpdate s.blocks i0 (block_size x)).length
          rw [splitUpdate_length s.blocks i0 (block_size x) hk]
          omega
        · show p = s.heap_start + offsetOf (splitUpdate s.blocks i0 (block_size x)) i0 + 4
          rw [hof, hp]
        · show msize ((splitUpdate s.blocks i0 (block_size x)).getD i0 0) = block_size x
          rw [hgd]
          unfold msize
          omega
        · show (splitUpdate s.blocks i0 (block_size x)).getD i0 0 % 2 = 1
          rw [hgd]
          omega
    | nofit =>
      rw [show balloc x s = (none, s) from by simp only [balloc, if_neg hval, hs]] at hb
      exact absurd (congrArg Prod.fst hb) (by simp)

end P3Heap

namespace P3Heap

/-- Claim C9 fails as stated: after `balloc(12)` (block size 16) on the
freshly initialized heap, `bfree` of the returned address, and `balloc(4)`
(block size 8), the freed block is reused (the same payload address is
returned) and no exact-size alternative free block exists elsewhere, yet
the total number of blocks grows from 2 to 3, because the freed 16-byte
block is split into an 8-byte allocated block and an 8-byte free block. -/
theorem claim_C9_counterexample :
    (0:Int) < 4 ∧ (4:Int) ≤ 12 ∧
    balloc 12 sInit = (some 4104, ⟨true, 4088, 4100, [19, 4074]⟩) ∧
    bfree 4104 ⟨true, 4088, 4100, [19, 4074]⟩ = (0, ⟨true, 4088, 4100, [18, 4072]⟩) ∧
    (∀ j, j < 2 → offsetOf [18, 4072] j ≠ (4104:Int) - 4 - 4100 →
      ¬ (isFree (([18, 4072] : List Int).getD j 0) = true ∧
         msize (([18, 4072] : List Int).getD j 0) = block_size 4)) ∧
    (balloc 4 ⟨true, 4088, 4100, [18, 4072]⟩).1 = some 4104 ∧
    (balloc 4 ⟨true, 4088, 4100, [18, 4072]⟩).2.blocks.length = 3 ∧
    (⟨true, 4088, 4100, [18, 4072]⟩ : AllocState).blocks.length = 2 := by
  decide

/-- Claim C9 (amended): for `0 < y ≤ x`, after a successful `balloc x`
returning `p` and a successful `bfree p`, a `balloc y` reuses the freed
block (returns the same payload address `p`) provided no other free block
has masked size between the required sizes of `y` and `x` inclusive; the
total number of blocks is unchanged when the required sizes of `y` and `x`
coincide (the freed block is an exact match) and grows by exactly one
otherwise (the freed block is split). -/
theorem claim_C9_amended (s : AllocState) (hR : Reachable s) (x y : Int)
    (hy : 0 < y) (hyx : y ≤ x) (p : Int) (s1 s2 : AllocState)
    (hb1 : balloc x s = (some p, s1)) (hf : bfree p s1 = (0, s2))
    (halt : ∀ j, j < s2.blocks.length →
      offsetOf s2.blocks j ≠ p - 4 - s2.heap_start →
      isFree (s2.blocks.getD j 0) = true →
      ¬ (block_size y ≤ msize (s2.blocks.getD j 0) ∧
         msize (s2.blocks.getD j 0) ≤ block_size x)) :
    (balloc y s2).1 = some p ∧
    (balloc y s2).2.blocks.length =
      s2.blocks.length + (if block_size y = block_size x then 0 else 1) := by
  have hWF := reachable_wf s hR
  have hWF1 : WF s1 := by
    have h := wf_balloc x s hWF
    rw [hb1] at h
    exact h
  obtain ⟨hx0, hxle, i, hi1, hp, hms1, hodd1⟩ := balloc_succ_inv s hWF x p s1 hb1
  have hfr1 := balloc_frame x s
  rw [hb1] at hfr1
  have hall1 := hWF1.1
  have hpos1 : ∀ q ∈ s1.blocks, 8 ≤ msize q := fun q hq => (hall1 q hq).2
  have hbl1 := hall1 _ (getD_mem s1.blocks i hi1)
  have hhs1 : s1.heap_start = s.heap_start := hfr1.2.1
  have has1 : s1.alloc_size = s.alloc_size := hfr1.1
  have hoff_nonneg : 0 ≤ offsetOf s1.blocks i := offsetOf_nonneg _ _ hpos1
  have hhs_pos : 0 < s.heap_start := hWF.2.2.2.2.1
  have hhs_mod : s.heap_start % 8 = 4 := hWF.2.2.2.1
  have hsum1 : sumSizes s1.blocks = s1.alloc_size := hWF1.2.2.1
  have hoff_hi := offsetOf_succ_le_sum s1.blocks i hi1 hpos1
  have hoff_succ := offsetOf_succ s1.blocks i hi1
  have hbs8 : 8 ≤ block_size x := block_size_ge x hx0
  have h0 : ¬ p = 0 := by omega
  have h8 : p % 8 = 0 := by
    have := offsetOf_mod8 s1.blocks i
    omega
  have hbnd : ¬ (p < s1.heap_start ∨ s1.heap_start + s1.alloc_size < p) := by
    rw [hhs1, has1]
    intro hcon
    rcases hcon with hcon | hcon
    · omega
    · omega
  have hloc1 : locate s1.blocks (p - 4 - s1.heap_start) = some i := by
    apply (locate_eq_some_iff s1.blocks hpos1 _ i).mpr
    refine ⟨hi1, ?_⟩
    rw [hhs1]
    omega
  have hrem1 : ¬ (s1.blocks.getD i 0 % 8 = 0 ∨ s1.blocks.getD i 0 % 8 = 2) := by omega
  have heq2 := bfree_succ_eq p s1 i h0 h8 hbnd hloc1 hrem1
  have hs2 : ({ s1 with blocks := freeUpdate s1.blocks i } : AllocState) = s2 :=
    congrArg Prod.snd (heq2.symm.trans hf)
  obtain ⟨hgd2, hof2⟩ := freeUpdate_at s1.blocks i hi1
  have hblocks2 : s2.blocks = freeUpdate s1.blocks i := by rw [← hs2]
  have hlen2 : s2.blocks.length = s1.blocks.length := by
    rw [hblocks2]
    exact freeUpdate_length s1.blocks i
  have hi2 : i < s2.blocks.length := by
    rw [hlen2]
    exact hi1
  have hhs2 : s2.heap_start = s.heap_start := by
    rw [← hs2]
    exact hhs1
  have has2 : s2.alloc_size = s.alloc_size := by
    rw [← hs2]
    exact has1
  have hWF2 : WF s2 := by
    have h := wf_bfree p s1 hWF1
    rw [hf] at h
    exact h
  have hall2 := hWF2.1
  have hpos2 : ∀ q ∈ s2.blocks, 8 ≤ msize q := fun q hq => (hall2 q hq).2
  have hgd2x : s2.blocks.getD i 0 = s1.blocks.getD i 0 - 1 := by
    rw [hblocks2]
    exact hgd2
  have hof2x : offsetOf s2.blocks i = offsetOf s1.blocks i := by
    rw [hblocks2]
    exact hof2
  have hbl2 := hall2 _ (getD_mem s2.blocks i hi2)
  have hms2 : msize (s2.blocks.getD i 0) = block_size x := by
    rw [hgd2x]
    have h1 := hbl1.1
    unfold msize at hms1 ⊢
    omega
  have heven2 : s2.blocks.getD i 0 % 2 = 0 := by
    rw [hgd2x]
    omega
  have hfree2 : s2.blocks.getD i 0 % 8 = 0 ∨ s2.blocks.getD i 0 % 8 = 2 := by
    have := hbl2.1
    omega
  have halt2 : ∀ j, j < s2.blocks.length → j ≠ i →
      (s2.blocks.getD j 0 % 8 = 0 ∨ s2.blocks.getD j 0 % 8 = 2) →
      ¬ (block_size y ≤ msize (s2.blocks.getD j 0) ∧
         msize (s2.blocks.getD j 0) ≤ block_size x) := by
    intro j hj hne hfr
    apply halt j hj
    · intro hcon
      apply hne
      apply offsetOf_inj s2.blocks hpos2 j i hj hi2
      rw [hcon, hof2x, hhs2]
      omega
    · simp only [isFree, decide_eq_true_iff]
      omega
  have hy_le : y ≤ s2.alloc_size := by
    rw [has2]
    omega
  have hbsmono : block_size y ≤ block_size x := by
    unfold block_size
    split <;> split <;> omega
  by_cases hcase : block_size y = block_size x
  · have hex : isExact (block_size y) (s2.blocks.getD i 0) := ⟨hfree2, by rw [hms2, hcase]⟩
    have hfirst : ∀ j, j < i → ¬ isExact (block_size y) (s2.blocks.getD j 0) := by
      intro j hj hexj
      have hjlen : j < s2.blocks.length := by omega
      exact halt2 j hjlen (by omega) hexj.1
        ⟨le_of_eq hexj.2.symm, by rw [hexj.2]; exact hbsmono⟩
    have hres := balloc_exact_eq s2 y hy hy_le i hi2 hex hfirst
    constructor
    · rw [hres]
      show some (s2.heap_start + offsetOf s2.blocks i + 4) = some p
      rw [hhs2, hof2x]
      exact congrArg some (by omega)
    · rw [hres, if_pos hcase]
      show (exactUpdate s2.blocks i).length = s2.blocks.length + 0
      rw [exactUpdate_length]
      omega
  · have hnoex : ∀ j, j < s2.blocks.length → ¬ isExact (block_size y) (s2.blocks.getD j 0) := by
      intro j hj hexj
      by_cases hji : j = i
      · subst hji
        have := hexj.2
        omega
      · exact halt2 j hj hji hexj.1
          ⟨le_of_eq hexj.2.symm, by rw [hexj.2]; exact hbsmono⟩
    have hcand : isCand (block_size y) (s2.blocks.getD i 0) := ⟨hfree2, by omega⟩
    have hmin : ∀ j, j < s2.blocks.length → isCand (block_size y) (s2.blocks.getD j 0) →
        msize (s2.blocks.getD i 0) ≤ msize (s2.blocks.getD j 0) := by
      intro j hj hcj
      by_cases hji : j = i
      · subst hji
        exact le_refl _
      · have hh := halt2 j hj hji hcj.1
        rw [hms2]
        by_contra hcon
        push_neg at hcon
        exact hh ⟨hcj.2, by omega⟩
    have hstrict : ∀ j, j < i → isCand (block_size y) (s2.blocks.getD j 0) →
        msize (s2.blocks.getD i 0) < msize (s2.blocks.getD j 0) := by
      intro j hj hcj
      have hjlen : j < s2.blocks.length := by omega
      have hh := halt2 j hjlen (by omega) hcj.1
      rw [hms2]
      by_contra hcon
      push_neg at hcon
      exact hh ⟨hcj.2, by omega⟩
    have hres := balloc_split_eq s2 y hy hy_le hnoex i hi2 hcand hmin hstrict
    constructor
    · rw [hres]
      show some (s2.heap_start + offsetOf s2.blocks i + 4) = some p
      rw [hhs2, hof2x]
      exact congrArg some (by omega)
    · rw [hres, if_neg hcase]
      show (splitUpdate s2.blocks i (block_size y)).length = s2.blocks.length + 1
      exact splitUpdate_length s2.blocks i _ hi2

theorem claim_C9_witness :
    (balloc 12 (⟨true, 4088, 4100, [18, 4072]⟩ : AllocState)).1 = some 4104 ∧
    (balloc 12 (⟨true, 4088, 4100, [18, 4072]⟩ : AllocState)).2.blocks.length = 2 := by
  have h := claim_C9_amended sInit sInit_reachable 12 12 (by decide) (by decide) 4104
    ⟨true, 4088, 4100, [19, 4074]⟩ ⟨true, 4088, 4100, [18, 4072]⟩ (by decide) (by decide)
    (by decide)
  refine ⟨h.1, ?_⟩
  rw [h.2]
  decide

end P3Heap
